import Mathlib

/-!
Verification of the lazyminer repository's two binary codecs against its
specification.

The development shallowly embeds the Rust sources:

* `src/mcserver/src/coder.rs` — the MC wire codec: VarInt/VarLong
  (7-bit continuation coding over the signed value), and the bit-packed
  Position (26/12/26 signed fields in one big-endian u64).
* `src/nbt/src/ser.rs` and `src/nbt/src/de.rs` — the NBT serializer and
  deserializer state machines driving serde's value model.

Machine integers are modelled as `Int` (signed values, two's complement made
explicit through `%`/`Int.emod` and `/`/`Int.ediv`, which in Lean are the
Euclidean operations: for a positive power-of-two divisor, `Int.ediv` is
floor division, i.e. Rust's arithmetic right shift, and `Int.emod` extracts
the low bits of the two's-complement pattern) and as `Nat` for unsigned bit
patterns and bytes, with explicit `% 2 ^ w` where Rust truncates.

Byte streams are `List Nat` (each element a byte value `< 256`); a writer
appends to a list, a reader consumes the front of a list. Fallible
operations return `Except`. A Rust panic (an `unreachable!()` or a failed
`assert_eq!`, which is a control-flow exit and not an error value) is
modelled as a distinguished `Except.error` payload, kept apart from the
error-value payloads.

Strings are modelled by their CESU-8 byte encodings (`List Nat`): the Rust
code delegates the CESU-8 transform to the external cesu8 crate
(`cesu8::to_java_cesu8` / `cesu8::from_java_cesu8`), which the spec treats
as an external collaborator, so a string value enters and leaves the codecs
only through its CESU-8 bytes. IEEE-754 floats enter the codecs only
through `to_bits`/`from_bits`, so they are modelled by their bit patterns.
-/

namespace LazyMiner

/-! ## Two's-complement helpers -/

/-- Reinterpret an unsigned `w`-bit pattern as a signed value (the Rust
`as i32`/`as i64` reinterpretation of an accumulator, and the final step of
VarInt decoding). -/
def toSigned (w : Nat) (n : Nat) : Int :=
  if n < 2 ^ (w - 1) then (n : Int) else (n : Int) - 2 ^ w

/-- The `lsb!(n)` macro of coder.rs: `(1 << n) - 1`. -/
def lsbMask (n : Nat) : Nat := 2 ^ n - 1

/-! ## MC wire codec: VarInt / VarLong (coder.rs lines 137–191)

The encoder operates on the signed value itself: each loop iteration
computes `rest = self.0 >> (7 * i)` (an arithmetic shift, since the field
is `i32`/`i64`), stops if `rest == 0`, and pushes `(rest & 0x7F) | 0x80`;
after the loop the last pushed byte has its high bit cleared with `^ 0x80`.
A zero value is encoded as the single byte `0x00` before the loop.

The decoder reads one byte at a time: it ORs `(byte & 0x7F) << (7 * i)`
into the accumulator after a `checked_shl`, which fails (with
`HumongousVarInt`) exactly when the shift amount `7 * i` reaches the bit
width; the shifted-out high bits are silently discarded, modelled by
`% 2 ^ w`. -/

inductive CoderError
  /-- An underlying I/O failure, including premature EOF from read_exact. -/
  | ioError
  /-- Error::HumongousVarInt. -/
  | humongousVarInt
  /-- Error::InvalidBooleanValue. -/
  | invalidBooleanValue (b : Nat)
  /-- Error::HumongousString. -/
  | humongousString
  /-- Error::InvalidString. -/
  | invalidString
deriving DecidableEq, Repr

/-- The byte-emitting loop of VarInt/VarLong serialize: the bytes pushed by
iterations `i, i+1, ...` when the current `rest` is `v`, with `fuel` the
remaining iteration budget out of MAX_BYTE_SIZE. Each pushed byte is
`(rest & 0x7F) | 0x80`; iterating the arithmetic shift `>> 7` is
`Int.ediv · 128`. -/
def varintGroups : Nat → Int → List Nat
  | 0, _ => []
  | fuel + 1, rest =>
    if rest = 0 then []
    else ((rest % 128).toNat ||| 128) :: varintGroups fuel (rest / 128)

/-- The `*buf.last_mut().unwrap() ^= 0b1000_0000` fixup: clear the high bit
of the last emitted byte. -/
def xorLastTop : List Nat → List Nat
  | [] => []
  | [b] => [b ^^^ 128]
  | b :: rest => b :: xorLastTop rest

/-- VarInt/VarLong serialize for a `w`-bit inner type: MAX_BYTE_SIZE is
`1 + (w / 7)`; a zero value short-circuits to the single byte 0x00. -/
def varintEncode (w : Nat) (v : Int) : List Nat :=
  if v = 0 then [0] else xorLastTop (varintGroups (1 + w / 7) v)

/-- VarInt/VarLong deserialize loop: read a byte, OR
`(byte & 0x7F) << (7 * i)` into the accumulator via `checked_shl` (which
returns None — `Error::HumongousVarInt` — iff `7 * i ≥ w`; overflowing
bits of the value are discarded, hence `% 2 ^ w`), and stop at the first
byte with the high bit clear. An empty stream is a read_exact failure. -/
def varintDecodeAux (w : Nat) : List Nat → Nat → Nat → Except CoderError (Nat × List Nat)
  | [], _, _ => .error .ioError
  | b :: rest, i, acc =>
    if w ≤ 7 * i then .error .humongousVarInt
    else
      let acc' := acc ||| ((b &&& 127) <<< (7 * i)) % 2 ^ w
      if b &&& 128 = 0 then .ok (acc', rest)
      else varintDecodeAux w rest (i + 1) acc'

/-- VarInt/VarLong deserialize: run the loop from `i = 0` with a zero
accumulator, then reinterpret the accumulated pattern as the signed
`w`-bit type. Returns the value and the unconsumed stream. -/
def varintDecode (w : Nat) (stream : List Nat) : Except CoderError (Int × List Nat) :=
  (varintDecodeAux w stream 0 0).map (fun p => (toSigned w p.1, p.2))

/-! ## MC wire codec: Position (coder.rs lines 224–268, objs/position.rs)

A Position holds `x : i32` (26 significant bits), `y : i16` (12 bits),
`z : i32` (26 bits). Serialize masks each field's two's-complement pattern
(`self.x as u64 & lsb!(26)` — the `as u64` cast sign-extends, so the mask
leaves exactly the low 26 bits of the pattern, i.e. `x.emod (2 ^ 26)`),
packs `(x << 38) | (y << 26) | z` and emits the u64 big-endian.
Deserialize reads the u64, extracts the fields by shift-and-mask and
sign-extends each with the `uN_to_iN!` macro. -/

structure Position where
  x : Int
  y : Int
  z : Int
deriving DecidableEq, Repr

/-- Big-endian bytes of the low `k` bytes of `n` (`to_be_bytes`). -/
def beBytes : Nat → Nat → List Nat
  | 0, _ => []
  | k + 1, n => (n / 2 ^ (8 * k)) % 256 :: beBytes k n

/-- Recombine big-endian bytes (`from_be_bytes`). -/
def beVal (bs : List Nat) : Nat := bs.foldl (fun a b => a * 256 + b) 0

/-- Big-endian byte encoding of an `8 * k` bit signed integer: the bytes of
its two's-complement pattern (`to_be_bytes` on `iN`). -/
def intBe (k : Nat) (v : Int) : List Nat := beBytes k (v % 2 ^ (8 * k)).toNat

/-- The `Into<u64> for Position` packing:
`(x & lsb!(26)) << 38 | (y & lsb!(12)) << 26 | (z & lsb!(26))` where each
field is first cast `as u64` (sign-extending, i.e. `emod 2 ^ 64`). -/
def positionIntoU64 (p : Position) : Nat :=
  let x := (p.x % 2 ^ 64).toNat &&& lsbMask 26
  let y := (p.y % 2 ^ 64).toNat &&& lsbMask 12
  let z := (p.z % 2 ^ 64).toNat &&& lsbMask 26
  (x <<< (26 + 12)) ||| (y <<< 26) ||| z

/-- The `uN_to_iN!` macro of position decode: reinterpret an `N`-bit
unsigned field as signed by subtracting `2 ^ N` when the top bit is set. -/
def uN_to_iN (N : Nat) (x : Nat) : Int :=
  (x : Int) - (if 2 ^ (N - 1) ≤ x then 2 ^ N else 0)

/-- The `From<u64> for Position` unpacking: extract `z`, `y`, `x` by
shift-and-mask and sign-extend each from its width. -/
def positionFromU64 (n : Nat) : Position :=
  let z := n &&& lsbMask 26
  let y := (n >>> 26) &&& lsbMask 12
  let x := (n >>> (26 + 12)) &&& lsbMask 26
  { x := uN_to_iN 26 x, y := uN_to_iN 12 y, z := uN_to_iN 26 z }

/-- Position serialize: pack into a u64 and emit its 8 big-endian bytes. -/
def positionSerialize (p : Position) : List Nat := beBytes 8 (positionIntoU64 p)

/-- Position deserialize: read 8 bytes, recombine the big-endian u64,
unpack. Returns the Position and the unconsumed stream. -/
def positionDeserialize (stream : List Nat) : Except CoderError (Position × List Nat) :=
  if 8 ≤ stream.length then
    .ok (positionFromU64 (beVal (stream.take 8)), stream.drop 8)
  else .error .ioError

/-! ## NBT codec (nbt/src/ser.rs, nbt/src/de.rs)

The nbt crate's error type has a single variant `Error::Message(String)`;
every failure (serde custom errors, invalid sizes, and I/O errors through
their Display strings) is such a message. A Rust panic — the
`unreachable!()` calls and the `assert_eq!` in ser.rs and de.rs, which are
control-flow exits rather than returned error values — is modelled by the
separate `panicked` payload. -/

inductive NbtErr
  /-- Error::Message — an error returned as a value. -/
  | message (msg : String)
  /-- A panic (unreachable!() / assert_eq! failure): a control-flow exit,
  not an error value. -/
  | panicked
deriving DecidableEq, Repr

/-- The serde value model restricted to what the NBT codec supports, with
strings as their CESU-8 byte encodings and floats as their IEEE-754 bit
patterns. Map keys are arbitrary values, as in serde; the serializer is
responsible for rejecting non-string keys. -/
inductive NValue
  | vI8 (v : Int)
  | vI16 (v : Int)
  | vI32 (v : Int)
  | vI64 (v : Int)
  | vF32 (bits : Nat)
  | vF64 (bits : Nat)
  | vBytes (b : List Nat)
  | vStr (cesu : List Nat)
  | vSeq (elems : List NValue)
  | vMap (entries : List (NValue × NValue))
deriving Repr

/-- The TypeID byte the serializer emits for each value shape
(the first argument of serialize_type_id in each serialize_* method). -/
def typeIdOf : NValue → Nat
  | .vI8 _ => 1
  | .vI16 _ => 2
  | .vI32 _ => 3
  | .vI64 _ => 4
  | .vF32 _ => 5
  | .vF64 _ => 6
  | .vBytes _ => 7
  | .vStr _ => 8
  | .vSeq _ => 9
  | .vMap _ => 10

/-- ser.rs State: the serializer's stack frames. -/
inductive SState
  /-- In a TAG_List of known size, before the first item: TypeID unknown. -/
  | firstListItem (size : Int)
  /-- In a TAG_List of known TypeID, `size` items not yet seen. -/
  | inList (typeId : Nat) (size : Int)
  /-- In a TAG_Compound, before the next named tag. -/
  | compoundBeforeEntry
  /-- In a TAG_Compound, after the current entry's TypeID and name. -/
  | compoundBeforeEntryValue (name : List Nat)
deriving DecidableEq, Repr

/-- Serializer state: the VecDeque used as a stack at its back (modelled
with the list head as the back/top), plus the bytes written so far. -/
structure SerSt where
  stack : List SState
  out : List Nat
deriving DecidableEq, Repr

/-- Append bytes to the writer. -/
def wr (bs : List Nat) (s : SerSt) : SerSt := { s with out := s.out ++ bs }

/-- Serializer::serialize_string_payload: CESU-8 encode (the value is
already its CESU-8 bytes), emit the u16 big-endian byte length (failing
when the length does not fit in a u16), then the bytes. -/
def serStringPayload (str : List Nat) (s : SerSt) : Except NbtErr SerSt :=
  if str.length ≤ 65535 then .ok (wr (beBytes 2 str.length ++ str) s)
  else .error (.message "String too long for NBT format")

/-- Serializer::serialize_bytearray_payload: i32 big-endian length then the
raw bytes. -/
def serBytesPayload (b : List Nat) (s : SerSt) : Except NbtErr SerSt :=
  if (b.length : Int) ≤ 2 ^ 31 - 1 then .ok (wr (intBe 4 b.length ++ b) s)
  else .error (.message "Byte array too long for NBT format")

/-- Serializer::serialize_type_id: emit the TypeID byte when the stack is
empty or a compound frame is on top; on the first list item, transition
FirstListItem → InList, emitting the TypeID and the i32 size; inside a
list, check homogeneity (no byte emitted), panic via unreachable!() if the
size was already exhausted, and decrement the size. -/
def serTypeId (t : Nat) (s : SerSt) : Except NbtErr SerSt :=
  match s.stack with
  | [] => .ok (wr [t] s)
  | .compoundBeforeEntryValue _ :: _ => .ok (wr [t] s)
  | .compoundBeforeEntry :: _ => .ok (wr [t] s)
  | .firstListItem size :: rest =>
    .ok (wr (t :: intBe 4 size) { s with stack := .inList t (size - 1) :: rest })
  | .inList listTypeId size :: rest =>
    if t ≠ listTypeId then
      .error (.message "Heterogenuous sequence not allowed in NBT format")
    else if size = 0 then .error .panicked
    else .ok { s with stack := .inList listTypeId (size - 1) :: rest }

/-- Serializer::serialize_name: with an empty stack, the root gets the
dummy empty name; inside a list, nothing; CompoundBeforeEntry is
unreachable!(); CompoundBeforeEntryValue pops, emits the stored name as a
string payload and pushes CompoundBeforeEntry. -/
def serName (s : SerSt) : Except NbtErr SerSt :=
  match s.stack with
  | [] => serStringPayload [] s
  | .inList _ _ :: _ => .ok s
  | .firstListItem _ :: _ => .ok s
  | .compoundBeforeEntry :: _ => .error .panicked
  | .compoundBeforeEntryValue name :: rest => do
    let s' ← serStringPayload name { s with stack := rest }
    .ok { s' with stack := .compoundBeforeEntry :: s'.stack }

/-- SerializeTuple::end: a fully consumed InList frame is popped; a
FirstListItem frame of size 0 (the empty-list edge case) emits TypeID 0
and the i32 size and is popped; anything else is unreachable!(). -/
def serTupleEnd (s : SerSt) : Except NbtErr SerSt :=
  match s.stack with
  | .inList _ size :: rest =>
    if size = 0 then .ok { s with stack := rest } else .error .panicked
  | .firstListItem size :: rest =>
    if size = 0 then .ok (wr (0 :: intBe 4 size) { s with stack := rest })
    else .error .panicked
  | _ => .error .panicked

/-- SerializeMap::end: serialize_type_id(0) (the TAG_End terminator), then
assert_eq! that the popped frame is CompoundBeforeEntry (a panic
otherwise). -/
def serMapEnd (s : SerSt) : Except NbtErr SerSt := do
  let s ← serTypeId 0 s
  match s.stack with
  | .compoundBeforeEntry :: rest => .ok { s with stack := rest }
  | _ => .error .panicked

mutual

/-- The serde Serializer impl for the NBT Serializer, driven over a value:
each serialize_* method emits TypeID, name, then payload; serialize_str
first checks for key capture (CompoundBeforeEntry on top); sequences go
through serialize_tuple (TypeID, name, push FirstListItem, elements, end);
maps go through serialize_map (TypeID, name, push CompoundBeforeEntry,
entries via serialize_key/serialize_value, end). -/
def serializeValue : NValue → SerSt → Except NbtErr SerSt
  | .vI8 v, s => do serTag 1 s (intBe 1 v)
  | .vI16 v, s => do serTag 2 s (intBe 2 v)
  | .vI32 v, s => do serTag 3 s (intBe 4 v)
  | .vI64 v, s => do serTag 4 s (intBe 8 v)
  | .vF32 bits, s => do serTag 5 s (beBytes 4 bits)
  | .vF64 bits, s => do serTag 6 s (beBytes 8 bits)
  | .vBytes b, s => do
    let s ← serTypeId 7 s
    let s ← serName s
    serBytesPayload b s
  | .vStr str, s =>
    match s.stack with
    | .compoundBeforeEntry :: rest =>
      .ok { s with stack := .compoundBeforeEntryValue str :: rest }
    | _ => do
      let s ← serTypeId 8 s
      let s ← serName s
      serStringPayload str s
  | .vSeq elems, s => do
    let s ← serTypeId 9 s
    let s ← serName s
    if (elems.length : Int) ≤ 2 ^ 31 - 1 then
      let s := { s with stack := .firstListItem elems.length :: s.stack }
      let s ← serializeElems elems s
      serTupleEnd s
    else .error (.message "tuple too long")
  | .vMap entries, s => do
    let s ← serTypeId 10 s
    let s ← serName s
    let s := { s with stack := .compoundBeforeEntry :: s.stack }
    let s ← serializeEntries entries s
    serMapEnd s

/-- The shared ser_tag! shape for fixed-payload tags: TypeID, name,
payload bytes. -/
def serTag (t : Nat) (s : SerSt) (payload : List Nat) :
    Except NbtErr SerSt := do
  let s ← serTypeId t s
  let s ← serName s
  .ok (wr payload s)

/-- SerializeTuple::serialize_element over the list of elements. -/
def serializeElems : List NValue → SerSt → Except NbtErr SerSt
  | [], s => .ok s
  | v :: vs, s => do
    let s ← serializeValue v s
    serializeElems vs s

/-- SerializeMap::serialize_key / serialize_value over the entries. -/
def serializeEntries : List (NValue × NValue) → SerSt → Except NbtErr SerSt
  | [], s => .ok s
  | (k, v) :: kvs, s => do
    let s ← serializeValue k s
    let s ← serializeValue v s
    serializeEntries kvs s

end

/-- Serialize a value as a root NBT document (fresh serializer, empty
state), returning the emitted bytes. -/
def nbtToBytes (v : NValue) : Except NbtErr (List Nat) :=
  (serializeValue v { stack := [], out := [] }).map SerSt.out

/-- de.rs DeserializerState: the deserializer's stack frames. -/
inductive DState
  /-- In a TAG_List: `size` elements remain, all of TypeID `typeId`. -/
  | listBeforeItem (size : Nat) (typeId : Nat)
  /-- In a TAG_Compound, before the next entry's TypeID. -/
  | compoundBeforeEntry
  /-- TypeID read, name not yet parsed. -/
  | compoundBeforeEntryName (typeId : Nat)
  /-- TypeID and name parsed, payload next. -/
  | compoundBeforeEntryPayload (typeId : Nat)
deriving DecidableEq, Repr

/-- Deserializer state: the unconsumed stream and the VecDeque stack
(list head = back/top, as for the serializer). -/
structure DeSt where
  stream : List Nat
  stack : List DState
deriving DecidableEq, Repr

/-- read_exact: take `n` bytes from the stream, or fail with the
deserializer's io-error message. -/
def readExact (n : Nat) (s : DeSt) : Except NbtErr (List Nat × DeSt) :=
  if n ≤ s.stream.length then .ok (s.stream.take n, { s with stream := s.stream.drop n })
  else .error (.message "io error")

/-- de_int!-style parser: read `k` big-endian bytes and reinterpret the
pattern as a signed `8 * k` bit integer (`from_be_bytes` on `iN`). -/
def parseIntBe (k : Nat) (s : DeSt) : Except NbtErr (Int × DeSt) :=
  (readExact k s).map (fun p => (toSigned (8 * k) (beVal p.1), p.2))

/-- Read `k` big-endian bytes as an unsigned value (the u32/u64 parsers
used for float bit patterns). -/
def parseNatBe (k : Nat) (s : DeSt) : Except NbtErr (Nat × DeSt) :=
  (readExact k s).map (fun p => (beVal p.1, p.2))

/-- Deserializer::parse_string. The writer emits the byte length as a u16,
but this parser reads it with parse_i16 — a SIGNED 16-bit value — and then
converts it to usize with parse_usize, which fails for negative values.
The string's CESU-8 bytes are then read verbatim (the cesu8 transform back
to a Rust String is the external collaborator and is modelled as the
identity on the CESU-8 byte representation). -/
def parseString (s : DeSt) : Except NbtErr (List Nat × DeSt) := do
  let (sizeI16, s) ← parseIntBe 2 s
  if sizeI16 < 0 then .error (.message "invalid size of a string")
  else readExact sizeI16.toNat s

/-- Deserializer::parse_type_id: one byte. -/
def parseTypeId (s : DeSt) : Except NbtErr (Nat × DeSt) := do
  let (bs, s) ← readExact 1 s
  .ok (bs.headI, s)

mutual

/-- Deserializer::deserialize_any driving a value-building visitor (the
serde_value-style value model the crate's own tests use): dispatch on the
popped stack frame, parse and discard the root name when the stack is
empty, then parse the tag payload. The `fuel` argument is a modelling
artifact bounding recursion depth; every claim below instantiates it
concretely and the parser never exhausts it on those inputs. -/
def deAny : Nat → DeSt → Except NbtErr (NValue × DeSt)
  | 0, _ => .error (.message "fuel exhausted")
  | fuel + 1, s =>
    match s.stack with
    | [] => do
      let (t, s) ← parseTypeId s
      let (_, s) ← parseString s
      parseTagPayload fuel t s
    | .compoundBeforeEntry :: _ => .error .panicked
    | .compoundBeforeEntryName t :: rest => do
      let (str, s) ← parseString { s with stack := .compoundBeforeEntryPayload t :: rest }
      .ok (.vStr str, s)
    | .listBeforeItem _ t :: _ => parseTagPayload fuel t s
    | .compoundBeforeEntryPayload t :: rest =>
      parseTagPayload fuel t { s with stack := .compoundBeforeEntry :: rest }
termination_by structural fuel _ => fuel

/-- Deserializer::parse_tag_payload: dispatch on the TypeID byte.
TAG_List parses the element TypeID and the i32 size (rejecting negatives
via parse_usize), pushes ListBeforeItem and runs the sequence access;
TAG_Compound pushes CompoundBeforeEntry and runs the map access; an
unknown TypeID is an invalid-type error. -/
def parseTagPayload (fuel : Nat) (t : Nat) (s : DeSt) : Except NbtErr (NValue × DeSt) :=
  match t with
  | 1 => (parseIntBe 1 s).map (fun p => (.vI8 p.1, p.2))
  | 2 => (parseIntBe 2 s).map (fun p => (.vI16 p.1, p.2))
  | 3 => (parseIntBe 4 s).map (fun p => (.vI32 p.1, p.2))
  | 4 => (parseIntBe 8 s).map (fun p => (.vI64 p.1, p.2))
  | 5 => (parseNatBe 4 s).map (fun p => (.vF32 p.1, p.2))
  | 6 => (parseNatBe 8 s).map (fun p => (.vF64 p.1, p.2))
  | 7 => do
    let (sizeI32, s) ← parseIntBe 4 s
    if sizeI32 < 0 then .error (.message "invalid size of a byte array")
    else
      let (buf, s) ← readExact sizeI32.toNat s
      .ok (.vBytes buf, s)
  | 8 => (parseString s).map (fun p => (.vStr p.1, p.2))
  | 9 =>
    match fuel with
    | 0 => .error (.message "fuel exhausted")
    | fuel + 1 => do
      let (elemT, s) ← parseTypeId s
      let (sizeI32, s) ← parseIntBe 4 s
      if sizeI32 < 0 then .error (.message "invalid size of a list")
      else
        let s := { s with stack := .listBeforeItem sizeI32.toNat elemT :: s.stack }
        let (elems, s) ← seqLoop fuel s []
        .ok (.vSeq elems, s)
  | 10 =>
    match fuel with
    | 0 => .error (.message "fuel exhausted")
    | fuel + 1 => do
      let s := { s with stack := .compoundBeforeEntry :: s.stack }
      let (entries, s) ← mapLoop fuel s []
      .ok (.vMap entries, s)
  | _ => .error (.message "invalid type id")
termination_by structural fuel

/-- The visitor's visit_seq loop over SeqAccess::next_element_seed:
pop the ListBeforeItem frame; size 0 ends the sequence (the frame stays
popped); otherwise push it back decremented and deserialize one element.
Elements are accumulated in reverse and reversed at the end. -/
def seqLoop : Nat → DeSt → List NValue → Except NbtErr (List NValue × DeSt)
  | 0, _, _ => .error (.message "fuel exhausted")
  | fuel + 1, s, acc =>
    match s.stack with
    | .listBeforeItem size t :: rest =>
      if size = 0 then .ok (acc.reverse, { s with stack := rest })
      else do
        let (v, s) ← deAny fuel { s with stack := .listBeforeItem (size - 1) t :: rest }
        seqLoop fuel s (v :: acc)
    | _ => .error (.message "Invalid state in SeqAccess")
termination_by structural fuel _ _ => fuel

/-- The visitor's visit_map loop over MapAccess::next_key_seed /
next_value_seed: pop CompoundBeforeEntry and read the entry TypeID; 0
(TAG_End) ends the map with the frame popped; otherwise push
CompoundBeforeEntryName and deserialize the key (a string), then require
CompoundBeforeEntryPayload on top (without popping) and deserialize the
value. -/
def mapLoop : Nat → DeSt → List (NValue × NValue) → Except NbtErr (List (NValue × NValue) × DeSt)
  | 0, _, _ => .error (.message "fuel exhausted")
  | fuel + 1, s, acc =>
    match s.stack with
    | .compoundBeforeEntry :: rest => do
      let (t, s) ← parseTypeId { s with stack := rest }
      if t = 0 then .ok (acc.reverse, s)
      else do
        let (k, s) ← deAny fuel { s with stack := .compoundBeforeEntryName t :: s.stack }
        match s.stack with
        | .compoundBeforeEntryPayload _ :: _ => do
          let (v, s) ← deAny fuel s
          mapLoop fuel s ((k, v) :: acc)
        | _ => .error (.message "Invalid state in next_value_seed")
    | _ => .error (.message "Invalid state in next_key_seed")
termination_by structural fuel _ _ => fuel

end

/-- Deserialize a root NBT document from bytes (fresh deserializer, empty
state stack), returning the value and the unconsumed bytes. -/
def nbtFromBytes (fuel : Nat) (bs : List Nat) : Except NbtErr (NValue × List Nat) :=
  (deAny fuel { stream := bs, stack := [] }).map (fun p => (p.1, p.2.stream))

/-! ## Bitwise bridge lemmas

The Rust code mixes bitwise operators with arithmetic; these lemmas convert
the bitwise forms into sums, products and remainders once and for all. -/

theorem lor_of_lt {a b k : Nat} (h : a < 2 ^ k) : a ||| b <<< k = b * 2 ^ k + a := by
  rw [Nat.shiftLeft_eq, Nat.lor_comm, Nat.mul_comm b (2 ^ k), ← Nat.mul_add_lt_is_or h]

theorem lor_128_of_lt {g : Nat} (h : g < 128) : g ||| 128 = g + 128 := by
  have := lor_of_lt (b := 1) (k := 7) h
  simpa [Nat.add_comm] using this

theorem and_127_of_lt {g : Nat} (h : g < 128) : g &&& 127 = g := by
  have := Nat.and_pow_two_sub_one_eq_mod g 7
  norm_num at this
  rw [this, Nat.mod_eq_of_lt h]

theorem and_128_of_lt {g : Nat} (h : g < 128) : g &&& 128 = 0 := by
  have h7 : g.testBit 7 = false := Nat.testBit_lt_two_pow h
  have := Nat.and_two_pow g 7
  norm_num at this
  rw [this, h7]
  rfl

theorem add_128_and_127 {g : Nat} (h : g < 128) : (g + 128) &&& 127 = g := by
  have := Nat.and_pow_two_sub_one_eq_mod (g + 128) 7
  norm_num at this
  rw [this]
  omega

theorem add_128_and_128 {g : Nat} (h : g < 128) : (g + 128) &&& 128 ≠ 0 := by
  have ht : (g + 128).testBit 7 = true := by
    rw [Nat.testBit_to_div_mod]
    have h1 : (g + 128) / 2 ^ 7 = 1 := by norm_num; omega
    rw [h1]
    rfl
  have := Nat.and_two_pow (g + 128) 7
  norm_num at this
  rw [this, ht]
  simp

theorem add_128_xor_128 {g : Nat} (h : g < 128) : (g + 128) ^^^ 128 = g := by
  apply Nat.eq_of_testBit_eq
  intro j
  rw [Nat.testBit_xor]
  have h128 : (128 : Nat) = 2 ^ 7 * 1 + 0 := by norm_num
  have hg : g + 128 = 2 ^ 7 * 1 + g := by omega
  rw [hg, h128, Nat.testBit_mul_pow_two_add _ h,
    Nat.testBit_mul_pow_two_add _ (by norm_num : (0:Nat) < 2 ^ 7)]
  rcases Nat.lt_trichotomy j 7 with hj | hj | hj
  · simp [hj]
  · subst hj
    have hgf : g.testBit 7 = false := Nat.testBit_lt_two_pow (by norm_num; omega)
    simp [hgf]
  · have hnj : ¬ j < 7 := by omega
    have h1f : Nat.testBit 1 (j - 7) = false :=
      Nat.testBit_lt_two_pow (Nat.one_lt_two_pow (by omega))
    have hgf : g.testBit j = false := by
      apply Nat.testBit_lt_two_pow
      calc g < 128 := h
        _ = 2 ^ 7 := by norm_num
        _ ≤ 2 ^ j := Nat.pow_le_pow_right (by norm_num) (by omega)
    have h0f : Nat.testBit 0 j = false := Nat.zero_testBit j
    simp [hnj, h1f, hgf, h0f]

/-! ## Big-endian byte lemmas -/

theorem length_beBytes (k n : Nat) : (beBytes k n).length = k := by
  induction k generalizing n with
  | zero => rfl
  | succ k ih => simp [beBytes, ih]

theorem beBytes_lt (k n : Nat) : ∀ b ∈ beBytes k n, b < 256 := by
  induction k generalizing n with
  | zero => simp [beBytes]
  | succ k ih =>
    simp only [beBytes, List.mem_cons]
    rintro b (rfl | hb)
    · exact Nat.mod_lt _ (by norm_num)
    · exact ih n b hb

theorem beVal_foldl (a : Nat) (bs : List Nat) :
    List.foldl (fun x b => x * 256 + b) a bs
      = a * 256 ^ bs.length + List.foldl (fun x b => x * 256 + b) 0 bs := by
  induction bs generalizing a with
  | nil => simp
  | cons b bs ih =>
    simp only [List.foldl_cons, List.length_cons, Nat.zero_mul, Nat.zero_add]
    rw [ih (a * 256 + b), ih b]
    ring

theorem beVal_beBytes (k n : Nat) : beVal (beBytes k n) = n % 2 ^ (8 * k) := by
  induction k generalizing n with
  | zero => simp [beBytes, beVal, Nat.mod_one]
  | succ k ih =>
    have hsplit : n % 2 ^ (8 * (k + 1)) = 2 ^ (8 * k) * (n / 2 ^ (8 * k) % 2 ^ 8) + n % 2 ^ (8 * k) := by
      have h1 : (2 : Nat) ^ (8 * (k + 1)) = 2 ^ (8 * k) * 2 ^ 8 := by
        rw [← pow_add]; ring_nf
      rw [h1, Nat.mod_mul]
      ring_nf
    simp only [beBytes, beVal, List.foldl_cons, Nat.zero_mul, Nat.zero_add]
    rw [beVal_foldl, length_beBytes]
    have h256 : (256 : Nat) = 2 ^ 8 := by norm_num
    have h256k : (256 : Nat) ^ k = 2 ^ (8 * k) := by
      rw [h256, ← pow_mul]
    rw [hsplit]
    have : beVal (beBytes k n) = n % 2 ^ (8 * k) := ih n
    rw [beVal] at this
    rw [this, h256k, h256]
    ring

theorem beVal_beBytes_of_lt {k n : Nat} (h : n < 2 ^ (8 * k)) : beVal (beBytes k n) = n := by
  rw [beVal_beBytes, Nat.mod_eq_of_lt h]

theorem readExact_append {n : Nat} {l rest : List Nat} {stack : List DState}
    (h : l.length = n) :
    readExact n { stream := l ++ rest, stack := stack }
      = .ok (l, { stream := rest, stack := stack }) := by
  subst h
  rw [readExact]
  simp

/-! ## Int two's-complement helpers -/

theorem emod_two_pow_nonneg (v : Int) (k : Nat) : 0 ≤ v % 2 ^ k :=
  Int.emod_nonneg v (by positivity)

theorem emod_two_pow_lt (v : Int) (k : Nat) : v % 2 ^ k < 2 ^ k :=
  Int.emod_lt_of_pos v (by positivity)

theorem toNat_emod_lt (v : Int) (k : Nat) : (v % 2 ^ k).toNat < 2 ^ k := by
  have h1 := emod_two_pow_lt v k
  have h2 := emod_two_pow_nonneg v k
  have h3 : ((2 ^ k : Nat) : Int) = 2 ^ k := by push_cast; ring
  omega

/-- Splitting the low `a + b` bits of a two's-complement pattern:
the low `a` bits plus the next `b` bits (of the floor quotient). -/
theorem emod_split (v : Int) (a b : Nat) :
    v % 2 ^ (a + b) = v % 2 ^ a + (v / 2 ^ a % 2 ^ b) * 2 ^ a := by
  have hq : v = 2 ^ a * (v / 2 ^ a) + v % 2 ^ a := (Int.ediv_add_emod v (2 ^ a)).symm
  have hq2 : v / 2 ^ a = 2 ^ b * (v / 2 ^ a / 2 ^ b) + v / 2 ^ a % 2 ^ b :=
    (Int.ediv_add_emod (v / 2 ^ a) (2 ^ b)).symm
  have hv : v = 2 ^ (a + b) * (v / 2 ^ a / 2 ^ b)
      + (v % 2 ^ a + (v / 2 ^ a % 2 ^ b) * 2 ^ a) := by
    calc v = 2 ^ a * (v / 2 ^ a) + v % 2 ^ a := hq
      _ = 2 ^ a * (2 ^ b * (v / 2 ^ a / 2 ^ b) + v / 2 ^ a % 2 ^ b) + v % 2 ^ a := by
          rw [← hq2]
      _ = 2 ^ (a + b) * (v / 2 ^ a / 2 ^ b)
          + (v % 2 ^ a + (v / 2 ^ a % 2 ^ b) * 2 ^ a) := by
          rw [pow_add]; ring
  have hlo : 0 ≤ v % 2 ^ a + (v / 2 ^ a % 2 ^ b) * 2 ^ a := by
    have h1 := emod_two_pow_nonneg v a
    have h2 := emod_two_pow_nonneg (v / 2 ^ a) b
    positivity
  have hhi : v % 2 ^ a + (v / 2 ^ a % 2 ^ b) * 2 ^ a < 2 ^ (a + b) := by
    have h1 := emod_two_pow_lt v a
    have h2 := emod_two_pow_lt (v / 2 ^ a) b
    have h3 := emod_two_pow_nonneg (v / 2 ^ a) b
    calc v % 2 ^ a + (v / 2 ^ a % 2 ^ b) * 2 ^ a
        < 2 ^ a + (v / 2 ^ a % 2 ^ b) * 2 ^ a := by omega
      _ = ((v / 2 ^ a % 2 ^ b) + 1) * 2 ^ a := by ring
      _ ≤ 2 ^ b * 2 ^ a := by
          have : (v / 2 ^ a % 2 ^ b) + 1 ≤ 2 ^ b := by omega
          exact mul_le_mul_of_nonneg_right this (by positivity)
      _ = 2 ^ (a + b) := by rw [← pow_add]; ring_nf
  calc v % 2 ^ (a + b)
      = (2 ^ (a + b) * (v / 2 ^ a / 2 ^ b)
        + (v % 2 ^ a + (v / 2 ^ a % 2 ^ b) * 2 ^ a)) % 2 ^ (a + b) := by rw [← hv]
    _ = (v % 2 ^ a + (v / 2 ^ a % 2 ^ b) * 2 ^ a) % 2 ^ (a + b) := by
        rw [Int.add_comm, Int.add_mul_emod_self_left]
    _ = v % 2 ^ a + (v / 2 ^ a % 2 ^ b) * 2 ^ a := Int.emod_eq_of_lt hlo hhi

/-! ## VarInt round-trip -/

theorem lor_mul_of_lt {a b k : Nat} (h : a < 2 ^ k) : a ||| b * 2 ^ k = b * 2 ^ k + a := by
  rw [Nat.lor_comm, Nat.mul_comm b (2 ^ k), ← Nat.mul_add_lt_is_or h, Nat.mul_comm]

theorem varintGroups_zero (f : Nat) : varintGroups f 0 = [] := by
  cases f <;> simp [varintGroups]

theorem xorLastTop_cons_of_ne {a : Nat} {l : List Nat} (h : l ≠ []) :
    xorLastTop (a :: l) = a :: xorLastTop l := by
  cases l with
  | nil => exact absurd rfl h
  | cons b bs => rfl

theorem varintGroup_byte_lt (v : Int) : (v % 128).toNat < 128 := by
  have h1 : (0:Int) ≤ v % 128 := Int.emod_nonneg v (by norm_num)
  have h2 : v % 128 < 128 := Int.emod_lt_of_pos v (by norm_num)
  omega

/-- Decoding the encoder's byte loop output, positive case: with `v > 0`
still to emit at byte index `i` (`j` bits of the target width remaining),
the decode loop accumulates exactly `v`'s bits shifted into place. -/
theorem varintDecodeAux_groups_pos (w : Nat) :
    ∀ (f : Nat) (v : Int) (i acc : Nat) (extra : List Nat) (j : Nat),
    0 < v → v < 2 ^ (7 * f) → 7 * i + j = w → v < 2 ^ j → acc < 2 ^ (7 * i) →
    varintDecodeAux w (xorLastTop (varintGroups f v) ++ extra) i acc
      = .ok (acc + v.toNat * 2 ^ (7 * i), extra) := by
  intro f
  induction f with
  | zero =>
    intro v i acc extra j hv hvf _ _ _
    exfalso
    simp only [Nat.mul_zero, pow_zero] at hvf
    omega
  | succ f ih =>
    intro v i acc extra j hv hvf hij hvj hacc
    have hvne : v ≠ 0 := by omega
    have hg_lt : (v % 128).toNat < 128 := varintGroup_byte_lt v
    set g : Nat := (v % 128).toNat with hg_def
    have hgror : (v % 128).toNat ||| 128 = g + 128 := lor_128_of_lt hg_lt
    have hsplit128 : v = 128 * (v / 128) + v % 128 := (Int.ediv_add_emod v 128).symm
    have hvmod_nonneg : (0:Int) ≤ v % 128 := Int.emod_nonneg v (by norm_num)
    have hgcast : ((g : Int)) = v % 128 := by
      rw [hg_def]; exact Int.toNat_of_nonneg hvmod_nonneg
    have h7i_lt_w : 7 * i < w := by
      have : 1 ≤ j := by
        by_contra hj
        have hj0 : j = 0 := by omega
        rw [hj0] at hvj
        simp at hvj
        omega
      omega
    by_cases hv' : v / 128 = 0
    · -- last byte: v < 128, the tail of the group list is empty
      have hvlt128 : v < 128 := by omega
      have hmod : v % 128 = v := Int.emod_eq_of_lt (by omega) hvlt128
      have hgv : (g : Int) = v := by rw [hgcast, hmod]
      have hlist : xorLastTop (varintGroups (f + 1) v) = [g] := by
        simp only [varintGroups, if_neg hvne, hv', varintGroups_zero, hgror]
        simp only [xorLastTop, add_128_xor_128 hg_lt]
      rw [hlist]
      simp only [List.cons_append, List.nil_append]
      rw [varintDecodeAux]
      rw [if_neg (by omega)]
      have hand127 : g &&& 127 = g := and_127_of_lt hg_lt
      have hand128 : g &&& 128 = 0 := and_128_of_lt hg_lt
      have hglt2j : g < 2 ^ j := by
        have h2jc : ((2 ^ j : Nat) : Int) = 2 ^ j := by push_cast; ring
        omega
      have hshift : (g <<< (7 * i)) % 2 ^ w = g * 2 ^ (7 * i) := by
        rw [Nat.shiftLeft_eq, Nat.mod_eq_of_lt]
        calc g * 2 ^ (7 * i) < 2 ^ j * 2 ^ (7 * i) :=
              mul_lt_mul_of_pos_right hglt2j (by positivity)
          _ = 2 ^ w := by rw [← pow_add, ← hij]; ring_nf
      have hvtoNat : v.toNat = g := by omega
      simp only [hand127, hshift, hand128, if_pos, lor_mul_of_lt hacc, hvtoNat]
      rw [Nat.add_comm]
    · -- continuation byte
      have hv'pos : 0 < v / 128 := by
        have hnn : 0 ≤ v / 128 := Int.ediv_nonneg (by omega) (by norm_num)
        omega
      have hv128 : (128:Int) ≤ v := by omega
      have hj8 : 8 ≤ j := by
        by_contra hj
        push_neg at hj
        have h1 : (2:Int) ^ j ≤ 2 ^ 7 := pow_le_pow_right₀ (by norm_num) (by omega)
        have h2 : (2:Int) ^ 7 = 128 := by norm_num
        omega
      have htail_ne : varintGroups f (v / 128) ≠ [] := by
        cases f with
        | zero =>
          exfalso
          have h1 : (2:Int) ^ (7 * 1) = 128 := by norm_num
          rw [h1] at hvf
          omega
        | succ f' =>
          simp only [varintGroups, if_neg (by omega : ¬ v / 128 = 0)]
          simp
      have hlist : xorLastTop (varintGroups (f + 1) v)
          = (g + 128) :: xorLastTop (varintGroups f (v / 128)) := by
        simp only [varintGroups, if_neg hvne, hgror]
        exact xorLastTop_cons_of_ne htail_ne
      rw [hlist]
      simp only [List.cons_append]
      rw [varintDecodeAux]
      rw [if_neg (by omega)]
      have hand127 : (g + 128) &&& 127 = g := add_128_and_127 hg_lt
      have hand128 : (g + 128) &&& 128 ≠ 0 := add_128_and_128 hg_lt
      have hshift : (g <<< (7 * i)) % 2 ^ w = g * 2 ^ (7 * i) := by
        rw [Nat.shiftLeft_eq, Nat.mod_eq_of_lt]
        calc g * 2 ^ (7 * i) < 2 ^ 7 * 2 ^ (7 * i) :=
              mul_lt_mul_of_pos_right (by omega) (by positivity)
          _ ≤ 2 ^ j * 2 ^ (7 * i) := by
              have h7j : (2:Nat) ^ 7 ≤ 2 ^ j := Nat.pow_le_pow_right (by norm_num) (by omega)
              exact Nat.mul_le_mul_right _ h7j
          _ = 2 ^ w := by rw [← pow_add, ← hij]; ring_nf
      have hrec := ih (v / 128) (i + 1) (g * 2 ^ (7 * i) + acc) extra (j - 7)
        hv'pos
        (by
          have hpow : (2:Int) ^ (7 * f) * 128 = 2 ^ (7 * (f + 1)) := by
            rw [show (128:Int) = 2 ^ 7 by norm_num, ← pow_add]
            ring_nf
          omega)
        (by omega)
        (by
          have hpow : (2:Int) ^ (j - 7) * 128 = 2 ^ j := by
            rw [show (128:Int) = 2 ^ 7 by norm_num, ← pow_add]
            congr 1
            omega
          omega)
        (by
          have hb : g * 2 ^ (7 * i) + acc < 128 * 2 ^ (7 * i) := by
            have h1 := Nat.mul_le_mul_right (2 ^ (7 * i)) (show g + 1 ≤ 128 by omega)
            nlinarith [pow_pos (show (0:Nat) < 2 by norm_num) (7 * i)]
          calc g * 2 ^ (7 * i) + acc < 128 * 2 ^ (7 * i) := hb
            _ = 2 ^ (7 * (i + 1)) := by
                rw [show (128:Nat) = 2 ^ 7 by norm_num, ← pow_add]
                ring_nf)
      simp only [hand127, hshift, lor_mul_of_lt hacc, if_neg hand128]
      rw [hrec]
      congr 1
      have hvtn : v.toNat = 128 * (v / 128).toNat + g := by
        have h1 : 0 ≤ v / 128 := by omega
        omega
      have h2pow : (2:Nat) ^ (7 * (i + 1)) = 128 * 2 ^ (7 * i) := by
        rw [show (128:Nat) = 2 ^ 7 by norm_num, ← pow_add]
        ring_nf
      rw [hvtn, h2pow]
      ring_nf

/-- Decoding the encoder's byte loop output, negative case: a negative
`rest` never reaches zero under the arithmetic shift, so the loop always
exhausts its fuel, emitting the low bits of the two's-complement pattern;
the top byte's high bits beyond the width are discarded by the decoder's
shift truncation. -/
theorem varintDecodeAux_groups_neg (w : Nat) :
    ∀ (f : Nat) (v : Int) (i acc : Nat) (extra : List Nat) (j : Nat),
    v < 0 → 1 ≤ f → 7 * i + j = w → 7 * (f - 1) < j → j ≤ 7 * f → acc < 2 ^ (7 * i) →
    varintDecodeAux w (xorLastTop (varintGroups f v) ++ extra) i acc
      = .ok (acc + (v % 2 ^ j).toNat * 2 ^ (7 * i), extra) := by
  intro f
  induction f with
  | zero => intro v i acc extra j _ hf _ _ _ _; omega
  | succ f ih =>
    intro v i acc extra j hv _ hij hjlo hjhi hacc
    have hvne : v ≠ 0 := by omega
    have hg_lt : (v % 128).toNat < 128 := varintGroup_byte_lt v
    set g : Nat := (v % 128).toNat with hg_def
    have hgror : (v % 128).toNat ||| 128 = g + 128 := lor_128_of_lt hg_lt
    have hvmod_nonneg : (0:Int) ≤ v % 128 := Int.emod_nonneg v (by norm_num)
    have hgcast : ((g : Int)) = v % 128 := by
      rw [hg_def]; exact Int.toNat_of_nonneg hvmod_nonneg
    have hj1 : 1 ≤ j := by omega
    have h7i_lt_w : 7 * i < w := by omega
    cases f with
    | zero =>
      -- the last of the MAX_BYTE_SIZE bytes: j ≤ 7 bits of the width remain
      have hj7 : j ≤ 7 := by omega
      have hlist : xorLastTop (varintGroups 1 v) = [g] := by
        simp only [varintGroups, if_neg hvne, varintGroups_zero, hgror]
        simp only [xorLastTop, add_128_xor_128 hg_lt]
      rw [hlist]
      simp only [List.cons_append, List.nil_append]
      rw [varintDecodeAux]
      rw [if_neg (by omega)]
      have hand127 : g &&& 127 = g := and_127_of_lt hg_lt
      have hand128 : g &&& 128 = 0 := and_128_of_lt hg_lt
      have hshift : (g <<< (7 * i)) % 2 ^ w = (g % 2 ^ j) * 2 ^ (7 * i) := by
        rw [Nat.shiftLeft_eq]
        have hw : (2:Nat) ^ w = 2 ^ j * 2 ^ (7 * i) := by
          rw [← pow_add, ← hij]; ring_nf
        rw [hw, Nat.mul_mod_mul_right]
      have hgj : g % 2 ^ j = (v % 2 ^ j).toNat := by
        have hdvd : ((2:Int) ^ j) ∣ ((2:Int) ^ 7) := pow_dvd_pow 2 hj7
        have hmm : v % 2 ^ 7 % 2 ^ j = v % 2 ^ j := Int.emod_emod_of_dvd v hdvd
        have hcast : ((g % 2 ^ j : Nat) : Int) = (v % 2 ^ j : Int) := by
          push_cast
          rw [hgcast]
          rw [show ((128:Int)) = 2 ^ 7 by norm_num] at *
          exact_mod_cast hmm
        omega
      simp only [hand127, hshift, hand128, if_pos, lor_mul_of_lt hacc, hgj]
      rw [Nat.add_comm]
    | succ f' =>
      -- a continuation byte: the shifted rest is still negative, so the
      -- tail of the group list is nonempty
      have hv' : v / 128 < 0 := Int.ediv_neg' hv (by norm_num)
      have hj8 : 8 ≤ j := by omega
      have htail_ne : varintGroups (f' + 1) (v / 128) ≠ [] := by
        simp only [varintGroups, if_neg (by omega : ¬ v / 128 = 0)]
        simp
      have hlist : xorLastTop (varintGroups (f' + 1 + 1) v)
          = (g + 128) :: xorLastTop (varintGroups (f' + 1) (v / 128)) := by
        simp only [varintGroups, if_neg hvne, hgror]
        exact xorLastTop_cons_of_ne htail_ne
      rw [hlist]
      simp only [List.cons_append]
      rw [varintDecodeAux]
      rw [if_neg (by omega)]
      have hand127 : (g + 128) &&& 127 = g := add_128_and_127 hg_lt
      have hand128 : (g + 128) &&& 128 ≠ 0 := add_128_and_128 hg_lt
      have hshift : (g <<< (7 * i)) % 2 ^ w = g * 2 ^ (7 * i) := by
        rw [Nat.shiftLeft_eq, Nat.mod_eq_of_lt]
        calc g * 2 ^ (7 * i) < 2 ^ 7 * 2 ^ (7 * i) :=
              mul_lt_mul_of_pos_right (by omega) (by positivity)
          _ ≤ 2 ^ j * 2 ^ (7 * i) := by
              have h7j : (2:Nat) ^ 7 ≤ 2 ^ j := Nat.pow_le_pow_right (by norm_num) (by omega)
              exact Nat.mul_le_mul_right _ h7j
          _ = 2 ^ w := by rw [← pow_add, ← hij]; ring_nf
      have hrec := ih (v / 128) (i + 1) (g * 2 ^ (7 * i) + acc) extra (j - 7)
        hv' (by omega) (by omega) (by omega) (by omega)
        (by
          have hb : g * 2 ^ (7 * i) + acc < 128 * 2 ^ (7 * i) := by
            have h1 := Nat.mul_le_mul_right (2 ^ (7 * i)) (show g + 1 ≤ 128 by omega)
            nlinarith [pow_pos (show (0:Nat) < 2 by norm_num) (7 * i)]
          calc g * 2 ^ (7 * i) + acc < 128 * 2 ^ (7 * i) := hb
            _ = 2 ^ (7 * (i + 1)) := by
                rw [show (128:Nat) = 2 ^ 7 by norm_num, ← pow_add]
                ring_nf)
      simp only [hand127, hshift, lor_mul_of_lt hacc, if_neg hand128]
      rw [hrec]
      congr 1
      -- combine: low 7 bits of v plus the next j - 7 bits of v / 128
      have hsplit : v % 2 ^ j = v % 2 ^ 7 + (v / 2 ^ 7 % 2 ^ (j - 7)) * 2 ^ 7 := by
        have h1 := emod_split v 7 (j - 7)
        rw [show 7 + (j - 7) = j by omega] at h1
        exact h1
      have h128pow : ((128:Int)) = 2 ^ 7 := by norm_num
      have hmod7_lt : v % 2 ^ 7 < 2 ^ 7 := emod_two_pow_lt v 7
      have hmod7_nonneg : (0:Int) ≤ v % 2 ^ 7 := emod_two_pow_nonneg v 7
      have hmodj7_lt := emod_two_pow_lt (v / 2 ^ 7) (j - 7)
      have hmodj7_nonneg := emod_two_pow_nonneg (v / 2 ^ 7) (j - 7)
      have hgv7 : (g : Int) = v % 2 ^ 7 := by rw [hgcast, h128pow]
      have hdivcast : v / 128 = v / 2 ^ 7 := by rw [h128pow]
      have h2pow : (2:Nat) ^ (7 * (i + 1)) = 2 ^ (7 * i) * 128 := by
        rw [show (128:Nat) = 2 ^ 7 by norm_num, ← pow_add]
        ring_nf
      have htn : (v % 2 ^ j).toNat = g + ((v / 128) % 2 ^ (j - 7)).toNat * 128 := by
        rw [hdivcast]
        have h128c : ((128:Nat) : Int) = 2 ^ 7 := by norm_num
        omega
      rw [htn, h2pow]
      ring_nf

/-- VarInt/VarLong round trip for any representable value of a `w`-bit
inner type whose width is not a multiple of 7 (both 32 and 64 qualify):
decoding the encoder's output returns the value and leaves the rest of the
stream untouched. -/
theorem varint_roundtrip_general (w : Nat) (hw : w % 7 ≠ 0) (v : Int)
    (h1 : -2 ^ (w - 1) ≤ v) (h2 : v < 2 ^ (w - 1)) (extra : List Nat) :
    varintDecode w (varintEncode w v ++ extra) = .ok (v, extra) := by
  have hw1 : 1 ≤ w := by omega
  have hcast1 : ((2 ^ (w - 1) : Nat) : Int) = 2 ^ (w - 1) := by push_cast; ring
  have hcastw : ((2 ^ w : Nat) : Int) = 2 ^ w := by push_cast; ring
  have hpoww : (2:Int) ^ w = 2 * 2 ^ (w - 1) := by
    conv_lhs => rw [show w = (w - 1) + 1 by omega]
    rw [pow_succ]
    ring
  rcases lt_trichotomy v 0 with hneg | hzero | hpos
  · -- negative: the loop runs through all MAX_BYTE_SIZE bytes
    rw [varintEncode, if_neg (by omega)]
    rw [varintDecode]
    rw [varintDecodeAux_groups_neg w (1 + w / 7) v 0 0 extra w hneg (by omega)
      (by omega) (by omega) (by omega) (by norm_num)]
    have hvw : v % 2 ^ w = v + 2 ^ w := by
      have hmm : (v + 2 ^ w * 1) % 2 ^ w = v % 2 ^ w :=
        Int.add_mul_emod_self_left v (2 ^ w) 1
      have h0 : (0:Int) ≤ v + 2 ^ w := by omega
      have hlt : v + 2 ^ w < 2 ^ w := by omega
      calc v % 2 ^ w = (v + 2 ^ w * 1) % 2 ^ w := hmm.symm
        _ = v + 2 ^ w := by
            rw [Int.mul_one]
            exact Int.emod_eq_of_lt h0 hlt
    simp only [Except.map, pow_zero, Nat.mul_one, Nat.zero_add, toSigned, hvw]
    rw [if_neg (by omega)]
    simp only [Except.ok.injEq, Prod.mk.injEq, and_true]
    omega
  · -- zero: the single byte 0x00
    subst hzero
    rw [varintEncode, if_pos rfl, varintDecode]
    simp only [List.cons_append, List.nil_append]
    have hstep : varintDecodeAux w (0 :: extra) 0 0 = .ok (0, extra) := by
      rw [varintDecodeAux]
      rw [if_neg (by omega)]
      norm_num
    rw [hstep]
    simp only [Except.map, toSigned]
    rw [if_pos (by positivity)]
    simp
  · -- positive: the loop stops at the first zero rest
    rw [varintEncode, if_neg (by omega)]
    rw [varintDecode]
    have hvf : v < 2 ^ (7 * (1 + w / 7)) := by
      calc v < 2 ^ (w - 1) := h2
        _ ≤ 2 ^ (7 * (1 + w / 7)) := pow_le_pow_right₀ (by norm_num) (by omega)
    have hvw : v < 2 ^ w := by
      calc v < 2 ^ (w - 1) := h2
        _ ≤ 2 ^ w := pow_le_pow_right₀ (by norm_num) (by omega)
    rw [varintDecodeAux_groups_pos w (1 + w / 7) v 0 0 extra w hpos hvf
      (by omega) hvw (by norm_num)]
    simp only [Except.map, pow_zero, Nat.mul_one, Nat.zero_add, toSigned]
    rw [if_pos (by omega)]
    simp only [Except.ok.injEq, Prod.mk.injEq, and_true]
    omega

/-! ## Position packing -/

theorem toNat_mod_pow {a : Int} (h : 0 ≤ a) (k : Nat) :
    a.toNat % 2 ^ k = (a % 2 ^ k).toNat := by
  have h1 : ((a.toNat % 2 ^ k : Nat) : Int) = a % 2 ^ k := by
    push_cast [Int.toNat_of_nonneg h]
    ring
  have h2 := emod_two_pow_nonneg a k
  omega

theorem emod_pow_emod_pow {v : Int} {j k : Nat} (h : j ≤ k) :
    v % 2 ^ k % 2 ^ j = v % 2 ^ j :=
  Int.emod_emod_of_dvd v (pow_dvd_pow 2 h)

/-- The bit-packed u64 of a Position, in arithmetic form: the masked
two's-complement field patterns occupy disjoint bit ranges 38–63, 26–37
and 0–25, so the ORs are sums. -/
theorem positionIntoU64_eq (p : Position) :
    positionIntoU64 p = (p.x % 2 ^ 26).toNat * 2 ^ 38
      + (p.y % 2 ^ 12).toNat * 2 ^ 26 + (p.z % 2 ^ 26).toNat := by
  have hx64 : (0:Int) ≤ p.x % 2 ^ 64 := emod_two_pow_nonneg p.x 64
  have hy64 : (0:Int) ≤ p.y % 2 ^ 64 := emod_two_pow_nonneg p.y 64
  have hz64 : (0:Int) ≤ p.z % 2 ^ 64 := emod_two_pow_nonneg p.z 64
  have hx : (p.x % 2 ^ 64).toNat &&& lsbMask 26 = (p.x % 2 ^ 26).toNat := by
    show (p.x % 2 ^ 64).toNat &&& (2 ^ 26 - 1) = (p.x % 2 ^ 26).toNat
    rw [Nat.and_pow_two_sub_one_eq_mod, toNat_mod_pow hx64,
      emod_pow_emod_pow (by norm_num)]
  have hy : (p.y % 2 ^ 64).toNat &&& lsbMask 12 = (p.y % 2 ^ 12).toNat := by
    show (p.y % 2 ^ 64).toNat &&& (2 ^ 12 - 1) = (p.y % 2 ^ 12).toNat
    rw [Nat.and_pow_two_sub_one_eq_mod, toNat_mod_pow hy64,
      emod_pow_emod_pow (by norm_num)]
  have hz : (p.z % 2 ^ 64).toNat &&& lsbMask 26 = (p.z % 2 ^ 26).toNat := by
    show (p.z % 2 ^ 64).toNat &&& (2 ^ 26 - 1) = (p.z % 2 ^ 26).toNat
    rw [Nat.and_pow_two_sub_one_eq_mod, toNat_mod_pow hz64,
      emod_pow_emod_pow (by norm_num)]
  rw [positionIntoU64]
  simp only [hx, hy, hz]
  set X := (p.x % 2 ^ 26).toNat with hX_def
  set Y := (p.y % 2 ^ 12).toNat with hY_def
  set Z := (p.z % 2 ^ 26).toNat with hZ_def
  have hXlt : X < 2 ^ 26 := toNat_emod_lt p.x 26
  have hYlt : Y < 2 ^ 12 := toNat_emod_lt p.y 12
  have hZlt : Z < 2 ^ 26 := toNat_emod_lt p.z 26
  have h1 : X <<< (26 + 12) ||| Y <<< 26 = X * 2 ^ 38 + Y * 2 ^ 26 := by
    rw [Nat.shiftLeft_eq, Nat.shiftLeft_eq]
    have hYlt' : Y * 2 ^ 26 < 2 ^ 38 := by
      calc Y * 2 ^ 26 < 2 ^ 12 * 2 ^ 26 := mul_lt_mul_of_pos_right hYlt (by positivity)
        _ = 2 ^ 38 := by norm_num
    have := Nat.mul_add_lt_is_or hYlt' X
    rw [show (26:Nat) + 12 = 38 by norm_num]
    rw [Nat.mul_comm X (2 ^ 38)]
    omega
  have h2 : (X * 2 ^ 38 + Y * 2 ^ 26) ||| Z = X * 2 ^ 38 + Y * 2 ^ 26 + Z := by
    have hsum : X * 2 ^ 38 + Y * 2 ^ 26 = 2 ^ 26 * (X * 2 ^ 12 + Y) := by ring
    have := Nat.mul_add_lt_is_or hZlt (X * 2 ^ 12 + Y)
    rw [hsum]
    omega
  rw [h1, h2]

theorem positionIntoU64_lt (p : Position) : positionIntoU64 p < 2 ^ 64 := by
  rw [positionIntoU64_eq]
  have h1 := toNat_emod_lt p.x 26
  have h2 := toNat_emod_lt p.y 12
  have h3 := toNat_emod_lt p.z 26
  omega

/-- Unpacking a packed u64: the three fields come back out. -/
theorem positionFromU64_fields {X Y Z : Nat}
    (hX : X < 2 ^ 26) (hY : Y < 2 ^ 12) (hZ : Z < 2 ^ 26) :
    positionFromU64 (X * 2 ^ 38 + Y * 2 ^ 26 + Z)
      = { x := uN_to_iN 26 X, y := uN_to_iN 12 Y, z := uN_to_iN 26 Z } := by
  set n := X * 2 ^ 38 + Y * 2 ^ 26 + Z with hn_def
  have hz : n &&& lsbMask 26 = Z := by
    show n &&& (2 ^ 26 - 1) = Z
    rw [Nat.and_pow_two_sub_one_eq_mod]
    omega
  have hy : (n >>> 26) &&& lsbMask 12 = Y := by
    show n >>> 26 &&& (2 ^ 12 - 1) = Y
    rw [Nat.and_pow_two_sub_one_eq_mod, Nat.shiftRight_eq_div_pow]
    omega
  have hx : (n >>> (26 + 12)) &&& lsbMask 26 = X := by
    show n >>> (26 + 12) &&& (2 ^ 26 - 1) = X
    rw [Nat.and_pow_two_sub_one_eq_mod, Nat.shiftRight_eq_div_pow]
    have h38 : (26:Nat) + 12 = 38 := by norm_num
    rw [h38]
    omega
  rw [positionFromU64]
  simp only [hx, hy, hz]

/-- Sign extension of the reduced pattern undoes the masking for any value
in the native signed range. -/
theorem uN_to_iN_emod (N : Nat) (hN : 1 ≤ N) (v : Int)
    (h1 : -2 ^ (N - 1) ≤ v) (h2 : v < 2 ^ (N - 1)) :
    uN_to_iN N (v % 2 ^ N).toNat = v := by
  have hcN : ((2 ^ N : Nat) : Int) = 2 ^ N := by push_cast; ring
  have hcN1 : ((2 ^ (N - 1) : Nat) : Int) = 2 ^ (N - 1) := by push_cast; ring
  have hpow : (2:Int) ^ N = 2 * 2 ^ (N - 1) := by
    conv_lhs => rw [show N = (N - 1) + 1 by omega]
    rw [pow_succ]
    ring
  have hmodn := emod_two_pow_nonneg v N
  have hmodl := emod_two_pow_lt v N
  have hvmod : v % 2 ^ N = v ∨ v % 2 ^ N = v + 2 ^ N := by
    rcases le_or_lt 0 v with hv | hv
    · left
      exact Int.emod_eq_of_lt hv (by omega)
    · right
      have hmm : (v + 2 ^ N * 1) % 2 ^ N = v % 2 ^ N :=
        Int.add_mul_emod_self_left v (2 ^ N) 1
      calc v % 2 ^ N = (v + 2 ^ N * 1) % 2 ^ N := hmm.symm
        _ = v + 2 ^ N := by
            rw [Int.mul_one]
            exact Int.emod_eq_of_lt (by omega) (by omega)
  simp only [uN_to_iN]
  split <;> omega

/-- Packing the sign-extended field recovers the masked pattern: encode
after decode is lossless on each field. -/
theorem emod_uN_to_iN {N X : Nat} (hX : X < 2 ^ N) :
    uN_to_iN N X % 2 ^ N = (X : Int) := by
  have hcN : ((2 ^ N : Nat) : Int) = 2 ^ N := by push_cast; ring
  simp only [uN_to_iN]
  split_ifs with h
  · have hmm : ((X : Int) - 2 ^ N) % 2 ^ N = (X : Int) % 2 ^ N := by
      have := Int.add_mul_emod_self_left (X : Int) (2 ^ N) (-1)
      calc ((X : Int) - 2 ^ N) % 2 ^ N = ((X : Int) + 2 ^ N * (-1)) % 2 ^ N := by ring_nf
        _ = (X : Int) % 2 ^ N := this
    rw [hmm]
    exact Int.emod_eq_of_lt (by positivity) (by omega)
  · simp only [sub_zero]
    exact Int.emod_eq_of_lt (by positivity) (by omega)

/-! ## NBT serializer stack discipline

To settle list homogeneity we track how one serialized value transforms
the serializer's frame stack. -/

theorem bind_ok_iff {ε α β : Type} {x : Except ε α} {f : α → Except ε β} {b : β} :
    (x >>= f) = .ok b ↔ ∃ a, x = .ok a ∧ f a = .ok b := by
  cases x <;> simp [Bind.bind, Except.bind]

/-- A list frame: what SerializeTuple keeps on top of the stack. -/
def listFrame (f : SState) : Prop :=
  (∃ sz, f = .firstListItem sz) ∨ (∃ t sz, f = .inList t sz)

/-- The stack transition of a successful serialize_type_id. -/
def tidStep (t : Nat) (st st' : List SState) : Prop :=
  match st with
  | [] => st' = []
  | .inList lt sz :: rest => t = lt ∧ sz ≠ 0 ∧ st' = .inList lt (sz - 1) :: rest
  | .firstListItem sz :: rest => st' = .inList t (sz - 1) :: rest
  | .compoundBeforeEntryValue nm :: rest => st' = .compoundBeforeEntryValue nm :: rest
  | .compoundBeforeEntry :: rest => st' = .compoundBeforeEntry :: rest

/-- The stack transition of a successful serialize_name. -/
def nameStep (st st' : List SState) : Prop :=
  match st with
  | [] => st' = []
  | .inList _ _ :: _ => st' = st
  | .firstListItem _ :: _ => st' = st
  | .compoundBeforeEntry :: _ => False
  | .compoundBeforeEntryValue _ :: rest => st' = .compoundBeforeEntry :: rest

/-- The net stack transition of successfully serializing one whole value
of TypeID `t` (type id, name, payload, and for lists/compounds the framed
children and the closing step). -/
def serStackStep (t : Nat) (st st' : List SState) : Prop :=
  match st with
  | [] => st' = []
  | .inList lt sz :: rest => t = lt ∧ sz ≠ 0 ∧ st' = .inList lt (sz - 1) :: rest
  | .firstListItem sz :: rest => st' = .inList t (sz - 1) :: rest
  | .compoundBeforeEntryValue _ :: rest => st' = .compoundBeforeEntry :: rest
  | .compoundBeforeEntry :: rest => ∃ nm, st' = .compoundBeforeEntryValue nm :: rest

theorem serTypeId_stack {t : Nat} {s s' : SerSt} (h : serTypeId t s = .ok s') :
    tidStep t s.stack s'.stack := by
  obtain ⟨stk, out⟩ := s
  match stk with
  | [] =>
    simp only [serTypeId, wr] at h
    cases h
    rfl
  | .inList lt sz :: rest =>
    simp only [serTypeId] at h
    split_ifs at h with h1 h2
    cases h
    exact ⟨by simpa using h1, h2, rfl⟩
  | .firstListItem sz :: rest =>
    simp only [serTypeId, wr] at h
    cases h
    rfl
  | .compoundBeforeEntryValue nm :: rest =>
    simp only [serTypeId, wr] at h
    cases h
    rfl
  | .compoundBeforeEntry :: rest =>
    simp only [serTypeId, wr] at h
    cases h
    rfl

theorem serStringPayload_stack {str : List Nat} {s s' : SerSt}
    (h : serStringPayload str s = .ok s') : s'.stack = s.stack := by
  rw [serStringPayload] at h
  split_ifs at h
  cases h
  rfl

theorem serBytesPayload_stack {b : List Nat} {s s' : SerSt}
    (h : serBytesPayload b s = .ok s') : s'.stack = s.stack := by
  rw [serBytesPayload] at h
  split_ifs at h
  cases h
  rfl

theorem serName_stack {s s' : SerSt} (h : serName s = .ok s') :
    nameStep s.stack s'.stack := by
  obtain ⟨stk, out⟩ := s
  match stk with
  | [] =>
    simp only [serName] at h
    have := serStringPayload_stack h
    simpa using this
  | .inList lt sz :: rest =>
    simp only [serName] at h
    cases h
    rfl
  | .firstListItem sz :: rest =>
    simp only [serName] at h
    cases h
    rfl
  | .compoundBeforeEntry :: rest =>
    simp only [serName] at h
    exact (Except.noConfusion h)
  | .compoundBeforeEntryValue nm :: rest =>
    simp only [serName, bind_ok_iff] at h
    obtain ⟨s1, h1, h2⟩ := h
    have := serStringPayload_stack h1
    cases h2
    simp [nameStep, this]

theorem serTupleEnd_stack {s s' : SerSt} (h : serTupleEnd s = .ok s') :
    ∃ f rest, s.stack = f :: rest ∧ listFrame f ∧ s'.stack = rest := by
  obtain ⟨stk, out⟩ := s
  match stk with
  | [] =>
    simp only [serTupleEnd] at h
    exact (Except.noConfusion h)
  | .inList lt sz :: rest =>
    simp only [serTupleEnd] at h
    split_ifs at h
    cases h
    exact ⟨_, rest, rfl, Or.inr ⟨lt, sz, rfl⟩, rfl⟩
  | .firstListItem sz :: rest =>
    simp only [serTupleEnd] at h
    split_ifs at h
    cases h
    exact ⟨_, rest, rfl, Or.inl ⟨sz, rfl⟩, rfl⟩
  | .compoundBeforeEntry :: rest =>
    simp only [serTupleEnd] at h
    exact (Except.noConfusion h)
  | .compoundBeforeEntryValue nm :: rest =>
    simp only [serTupleEnd] at h
    exact (Except.noConfusion h)

theorem serMapEnd_stack {s s' : SerSt} (h : serMapEnd s = .ok s') :
    ∃ rest, s.stack = .compoundBeforeEntry :: rest ∧ s'.stack = rest := by
  rw [serMapEnd] at h
  rw [bind_ok_iff] at h
  obtain ⟨s1, h1, h2⟩ := h
  have hstep := serTypeId_stack h1
  obtain ⟨stk, out⟩ := s
  match hm : stk, hstep with
  | [], hstep =>
    simp only [tidStep] at hstep
    rw [hstep] at h2
    simp at h2
  | .inList lt sz :: rest, hstep =>
    simp only [tidStep] at hstep
    rw [hstep.2.2] at h2
    simp at h2
  | .firstListItem sz :: rest, hstep =>
    simp only [tidStep] at hstep
    rw [hstep] at h2
    simp at h2
  | .compoundBeforeEntryValue nm :: rest, hstep =>
    simp only [tidStep] at hstep
    rw [hstep] at h2
    simp at h2
  | .compoundBeforeEntry :: rest, hstep =>
    simp only [tidStep] at hstep
    rw [hstep] at h2
    cases h2
    exact ⟨rest, rfl, rfl⟩

/-- Composing the type-id and name steps gives the net transition of a
whole value, for any value whose remaining payload steps leave the stack
where serialize_name left it. -/
theorem tid_name_serStep {t : Nat} {st st₁ st₂ : List SState}
    (ht : tidStep t st st₁) (hn : nameStep st₁ st₂) : serStackStep t st st₂ := by
  match st, ht with
  | [], ht =>
    simp only [tidStep] at ht
    rw [ht] at hn
    simp only [nameStep] at hn
    exact hn
  | .inList lt sz :: rest, ht =>
    obtain ⟨h1, h2, h3⟩ := ht
    rw [h3] at hn
    simp only [nameStep] at hn
    exact ⟨h1, h2, hn⟩
  | .firstListItem sz :: rest, ht =>
    simp only [tidStep] at ht
    rw [ht] at hn
    simp only [nameStep] at hn
    rw [hn]
    simp only [serStackStep]
  | .compoundBeforeEntryValue nm :: rest, ht =>
    simp only [tidStep] at ht
    rw [ht] at hn
    simp only [nameStep] at hn
    exact hn
  | .compoundBeforeEntry :: rest, ht =>
    simp only [tidStep] at ht
    rw [ht] at hn
    simp only [nameStep] at hn

/-- The ser_tag! pipeline (type id, name, fixed payload) performs the net
stack transition. -/
theorem serTag_stack {t : Nat} {payload : List Nat} {s s' : SerSt}
    (h : serTag t s payload = .ok s') : serStackStep t s.stack s'.stack := by
  rw [serTag, bind_ok_iff] at h
  obtain ⟨s1, h1, h⟩ := h
  rw [bind_ok_iff] at h
  obtain ⟨s2, h2, h3⟩ := h
  have hwr : s'.stack = s2.stack := by cases h3; rfl
  rw [hwr]
  exact tid_name_serStep (serTypeId_stack h1) (serName_stack h2)

mutual

/-- Serializing one value performs the net stack transition `serStackStep`
for its TypeID: list frames are decremented, compound frames alternate
between key and value position, and nested frames pushed for the value's
own children are popped again before it finishes. -/
theorem sv_stack (v : NValue) (s s' : SerSt) (h : serializeValue v s = .ok s') :
    serStackStep (typeIdOf v) s.stack s'.stack := by
  cases v with
  | vI8 x =>
    rw [serializeValue] at h
    exact serTag_stack h
  | vI16 x =>
    rw [serializeValue] at h
    exact serTag_stack h
  | vI32 x =>
    rw [serializeValue] at h
    exact serTag_stack h
  | vI64 x =>
    rw [serializeValue] at h
    exact serTag_stack h
  | vF32 x =>
    rw [serializeValue] at h
    exact serTag_stack h
  | vF64 x =>
    rw [serializeValue] at h
    exact serTag_stack h
  | vBytes b =>
    rw [serializeValue, bind_ok_iff] at h
    obtain ⟨s1, h1, h⟩ := h
    rw [bind_ok_iff] at h
    obtain ⟨s2, h2, h3⟩ := h
    have hwr : s'.stack = s2.stack := serBytesPayload_stack h3
    rw [hwr]
    exact tid_name_serStep (serTypeId_stack h1) (serName_stack h2)
  | vStr str =>
    obtain ⟨stk, out⟩ := s
    match hstk : stk with
    | .compoundBeforeEntry :: rest =>
      rw [serializeValue] at h
      cases h
      exact ⟨str, rfl⟩
    | [] =>
      rw [serializeValue, bind_ok_iff] at h
      obtain ⟨s1, h1, h⟩ := h
      rw [bind_ok_iff] at h
      obtain ⟨s2, h2, h3⟩ := h
      have hwr : s'.stack = s2.stack := serStringPayload_stack h3
      rw [hwr]
      exact tid_name_serStep (serTypeId_stack h1) (serName_stack h2)
    | .inList lt sz :: rest =>
      rw [serializeValue, bind_ok_iff] at h
      obtain ⟨s1, h1, h⟩ := h
      rw [bind_ok_iff] at h
      obtain ⟨s2, h2, h3⟩ := h
      have hwr : s'.stack = s2.stack := serStringPayload_stack h3
      rw [hwr]
      exact tid_name_serStep (serTypeId_stack h1) (serName_stack h2)
    | .firstListItem sz :: rest =>
      rw [serializeValue, bind_ok_iff] at h
      obtain ⟨s1, h1, h⟩ := h
      rw [bind_ok_iff] at h
      obtain ⟨s2, h2, h3⟩ := h
      have hwr : s'.stack = s2.stack := serStringPayload_stack h3
      rw [hwr]
      exact tid_name_serStep (serTypeId_stack h1) (serName_stack h2)
    | .compoundBeforeEntryValue nm :: rest =>
      rw [serializeValue, bind_ok_iff] at h
      obtain ⟨s1, h1, h⟩ := h
      rw [bind_ok_iff] at h
      obtain ⟨s2, h2, h3⟩ := h
      have hwr : s'.stack = s2.stack := serStringPayload_stack h3
      rw [hwr]
      exact tid_name_serStep (serTypeId_stack h1) (serName_stack h2)
  | vSeq elems =>
    rw [serializeValue, bind_ok_iff] at h
    obtain ⟨s1, h1, h⟩ := h
    rw [bind_ok_iff] at h
    obtain ⟨s2, h2, h⟩ := h
    split_ifs at h with hlen
    · rw [bind_ok_iff] at h
      obtain ⟨s4, h4, h5⟩ := h
      obtain ⟨f', hf', hs4⟩ := selems_stack elems
        { s2 with stack := .firstListItem (elems.length : Int) :: s2.stack } s4 h4
        (.firstListItem (elems.length : Int)) s2.stack rfl (Or.inl ⟨_, rfl⟩)
      obtain ⟨f, rest, hfr, _, hs'⟩ := serTupleEnd_stack h5
      rw [hs4] at hfr
      have hrest : rest = s2.stack := by
        injection hfr with _ h
        exact h.symm
      rw [hs', hrest]
      exact tid_name_serStep (serTypeId_stack h1) (serName_stack h2)
  | vMap entries =>
    rw [serializeValue, bind_ok_iff] at h
    obtain ⟨s1, h1, h⟩ := h
    rw [bind_ok_iff] at h
    obtain ⟨s2, h2, h⟩ := h
    rw [bind_ok_iff] at h
    obtain ⟨s4, h4, h5⟩ := h
    have hs4 : s4.stack = .compoundBeforeEntry :: s2.stack :=
      sentries_stack entries { s2 with stack := .compoundBeforeEntry :: s2.stack } s4 h4
        s2.stack rfl
    obtain ⟨rest, hfr, hs'⟩ := serMapEnd_stack h5
    rw [hs4] at hfr
    have hrest : rest = s2.stack := by
      injection hfr with _ h
      exact h.symm
    rw [hs', hrest]
    exact tid_name_serStep (serTypeId_stack h1) (serName_stack h2)

/-- Serializing the elements of a list keeps a list frame on top of the
stack and leaves everything below it untouched. -/
theorem selems_stack (vs : List NValue) (s s' : SerSt) (h : serializeElems vs s = .ok s')
    (f : SState) (rest : List SState) (hst : s.stack = f :: rest) (hf : listFrame f) :
    ∃ f', listFrame f' ∧ s'.stack = f' :: rest := by
  cases vs with
  | nil =>
    rw [serializeElems] at h
    cases h
    exact ⟨f, hf, hst⟩
  | cons v vs =>
    rw [serializeElems, bind_ok_iff] at h
    obtain ⟨s1, h1, h2⟩ := h
    have hstep := sv_stack v s s1 h1
    rw [hst] at hstep
    rcases hf with ⟨sz, rfl⟩ | ⟨t, sz, rfl⟩
    · simp only [serStackStep] at hstep
      exact selems_stack vs s1 s' h2 _ rest hstep (Or.inr ⟨_, _, rfl⟩)
    · simp only [serStackStep] at hstep
      exact selems_stack vs s1 s' h2 _ rest hstep.2.2 (Or.inr ⟨_, _, rfl⟩)

/-- Serializing the entries of a map returns the stack to key position
with everything below untouched. -/
theorem sentries_stack (kvs : List (NValue × NValue)) (s s' : SerSt)
    (h : serializeEntries kvs s = .ok s') (rest : List SState)
    (hst : s.stack = .compoundBeforeEntry :: rest) :
    s'.stack = .compoundBeforeEntry :: rest := by
  cases kvs with
  | nil =>
    rw [serializeEntries] at h
    cases h
    rw [← hst]
  | cons kv kvs =>
    obtain ⟨k, v⟩ := kv
    rw [serializeEntries, bind_ok_iff] at h
    obtain ⟨s1, h1, h⟩ := h
    rw [bind_ok_iff] at h
    obtain ⟨s2, h2, h3⟩ := h
    have hk := sv_stack k s s1 h1
    rw [hst] at hk
    simp only [serStackStep] at hk
    obtain ⟨nm, hs1⟩ := hk
    have hv := sv_stack v s1 s2 h2
    rw [hs1] at hv
    simp only [serStackStep] at hv
    exact sentries_stack kvs s2 s' h3 rest (by rw [hv])

end

/-- serialize_type_id inside a list whose TypeID disagrees: the
heterogeneity error, with no byte emitted (the serializer aborts). -/
theorem serTypeId_heterog {t lt : Nat} {sz : Int} {rest : List SState} {s : SerSt}
    (hst : s.stack = .inList lt sz :: rest) (hne : t ≠ lt) :
    serTypeId t s = .error (.message "Heterogenuous sequence not allowed in NBT format") := by
  obtain ⟨stk, out⟩ := s
  simp only at hst
  subst hst
  simp only [serTypeId]
  rw [if_pos hne]

/-- Serializing any value whose TypeID disagrees with the enclosing list's
declared TypeID fails with the heterogeneity error. -/
theorem sv_heterog (v : NValue) (s : SerSt) (lt : Nat) (sz : Int) (rest : List SState)
    (hst : s.stack = .inList lt sz :: rest) (hne : typeIdOf v ≠ lt) :
    serializeValue v s
      = .error (.message "Heterogenuous sequence not allowed in NBT format") := by
  cases v with
  | vI8 x =>
    rw [serializeValue, serTag, serTypeId_heterog hst (by simpa [typeIdOf] using hne)]
    rfl
  | vI16 x =>
    rw [serializeValue, serTag, serTypeId_heterog hst (by simpa [typeIdOf] using hne)]
    rfl
  | vI32 x =>
    rw [serializeValue, serTag, serTypeId_heterog hst (by simpa [typeIdOf] using hne)]
    rfl
  | vI64 x =>
    rw [serializeValue, serTag, serTypeId_heterog hst (by simpa [typeIdOf] using hne)]
    rfl
  | vF32 x =>
    rw [serializeValue, serTag, serTypeId_heterog hst (by simpa [typeIdOf] using hne)]
    rfl
  | vF64 x =>
    rw [serializeValue, serTag, serTypeId_heterog hst (by simpa [typeIdOf] using hne)]
    rfl
  | vBytes b =>
    rw [serializeValue, serTypeId_heterog hst (by simpa [typeIdOf] using hne)]
    rfl
  | vStr str =>
    obtain ⟨stk, out⟩ := s
    simp only at hst
    subst hst
    rw [serializeValue]
    rw [serTypeId_heterog rfl (by simpa [typeIdOf] using hne)]
    rfl
  | vSeq elems =>
    rw [serializeValue, serTypeId_heterog hst (by simpa [typeIdOf] using hne)]
    rfl
  | vMap entries =>
    rw [serializeValue, serTypeId_heterog hst (by simpa [typeIdOf] using hne)]
    rfl

/-- Every element of a successfully serialized list run has the list's
declared TypeID. -/
theorem selems_types (vs : List NValue) : ∀ (s s' : SerSt) (t : Nat) (sz : Int)
    (rest : List SState), serializeElems vs s = .ok s' →
    s.stack = .inList t sz :: rest → ∀ x ∈ vs, typeIdOf x = t := by
  induction vs with
  | nil => intro s s' t sz rest _ _ x hx; cases hx
  | cons v vs ih =>
    intro s s' t sz rest h hst x hx
    rw [serializeElems, bind_ok_iff] at h
    obtain ⟨s1, h1, h2⟩ := h
    have htv : typeIdOf v = t := by
      by_contra hne
      rw [sv_heterog v s t sz rest hst hne] at h1
      exact (Except.noConfusion h1)
    have hstep := sv_stack v s s1 h1
    rw [hst] at hstep
    simp only [serStackStep] at hstep
    rcases List.mem_cons.mp hx with rfl | hx'
    · exact htv
    · exact ih s1 s' t (sz - 1) rest h2 hstep.2.2 x hx'

/-- All elements of a successfully serialized list share one TypeID (the
first element's, which fixes the list's declared TypeID byte). -/
theorem vSeq_homog {elems : List NValue} {s s' : SerSt}
    (h : serializeValue (.vSeq elems) s = .ok s') :
    ∀ x ∈ elems, ∀ y ∈ elems, typeIdOf x = typeIdOf y := by
  cases elems with
  | nil => intro x hx; cases hx
  | cons e es =>
    rw [serializeValue, bind_ok_iff] at h
    obtain ⟨s1, h1, h⟩ := h
    rw [bind_ok_iff] at h
    obtain ⟨s2, h2, h⟩ := h
    split_ifs at h with hlen
    rw [bind_ok_iff] at h
    obtain ⟨s4, h4, _⟩ := h
    rw [serializeElems, bind_ok_iff] at h4
    obtain ⟨sA, hA, hB⟩ := h4
    have hstep := sv_stack e _ sA hA
    simp only [serStackStep] at hstep
    have htypes := selems_types es sA s4 (typeIdOf e) (((e :: es).length : Int) - 1)
      s2.stack hB hstep
    have hall : ∀ x ∈ e :: es, typeIdOf x = typeIdOf e := by
      intro x hx
      rcases List.mem_cons.mp hx with rfl | hx'
      · rfl
      · exact htypes x hx'
    intro x hx y hy
    rw [hall x hx, hall y hy]

/-! ## NBT root string encode/decode -/

/-- Encoding a root string: TypeID byte 8, the empty root name (u16 0),
then the u16 byte length and the CESU-8 bytes. -/
theorem nbtToBytes_vStr {s : List Nat} (h : s.length ≤ 65535) :
    nbtToBytes (.vStr s) = .ok (8 :: 0 :: 0 :: (beBytes 2 s.length ++ s)) := by
  have hb0 : beBytes 2 (0:Nat) = [0, 0] := rfl
  rw [nbtToBytes, serializeValue]
  simp [serTypeId, serName, serStringPayload, wr, bind, Except.bind, Except.map, h, hb0]

/-- A root string whose CESU-8 encoding does not fit in 65535 bytes fails
at encode (u16::try_from on the length). -/
theorem nbtToBytes_vStr_err {s : List Nat} (h : 65535 < s.length) :
    nbtToBytes (.vStr s) = .error (.message "String too long for NBT format") := by
  have hb0 : beBytes 2 (0:Nat) = [0, 0] := rfl
  rw [nbtToBytes, serializeValue]
  simp [serTypeId, serName, serStringPayload, wr, bind, Except.bind, Except.map, hb0,
    show ¬ s.length ≤ 65535 by omega]

theorem parseTypeId_cons {b : Nat} {rest : List Nat} {stk : List DState} :
    parseTypeId { stream := b :: rest, stack := stk } = .ok (b, { stream := rest, stack := stk }) := by
  have h : ([b] : List Nat).length = 1 := rfl
  rw [parseTypeId]
  rw [show (b :: rest) = [b] ++ rest from rfl] at *
  rw [readExact_append h]
  rfl

theorem parseIntBe_bytes {k : Nat} {l rest : List Nat} {stk : List DState} (h : l.length = k) :
    parseIntBe k { stream := l ++ rest, stack := stk }
      = .ok (toSigned (8 * k) (beVal l), { stream := rest, stack := stk }) := by
  rw [parseIntBe, readExact_append h]
  rfl

/-- parse_string on a well-formed length prefix below the i16 sign
boundary: the size parses non-negative and the body is read back. -/
theorem parseString_ok {n : Nat} (hn : n ≤ 32767) {body rest : List Nat}
    (hb : body.length = n) {stk : List DState} :
    parseString { stream := beBytes 2 n ++ (body ++ rest), stack := stk }
      = .ok (body, { stream := rest, stack := stk }) := by
  rw [parseString]
  rw [bind_ok_iff]
  refine ⟨(toSigned 16 (beVal (beBytes 2 n)), { stream := body ++ rest, stack := stk }), ?_, ?_⟩
  · exact parseIntBe_bytes (length_beBytes 2 n)
  · have hbe : beVal (beBytes 2 n) = n := beVal_beBytes_of_lt (by norm_num; omega)
    rw [hbe]
    have hts : toSigned 16 n = (n : Int) := by
      rw [toSigned, if_pos (by norm_num; omega)]
    rw [hts]
    simp only
    rw [if_neg (by omega)]
    have htn : ((n : Int)).toNat = n := rfl
    rw [htn, readExact_append hb]

/-- parse_string on a length prefix in 32768..65535: parse_i16 sees a
negative size and parse_usize rejects it. -/
theorem parseString_err {n : Nat} (h1 : 32768 ≤ n) (h2 : n ≤ 65535) {rest : List Nat}
    {stk : List DState} :
    parseString { stream := beBytes 2 n ++ rest, stack := stk }
      = .error (.message "invalid size of a string") := by
  rw [parseString]
  rw [parseIntBe_bytes (length_beBytes 2 n)]
  have hbe : beVal (beBytes 2 n) = n := beVal_beBytes_of_lt (by norm_num; omega)
  have hts : toSigned 16 n = (n : Int) - 65536 := by
    rw [toSigned, if_neg (by norm_num; omega)]
    norm_num
  simp only [bind, Except.bind, hbe, hts]
  rw [if_pos (by omega)]

/-- parse_string on the serializer's empty root name. -/
theorem parseString_empty {X : List Nat} {stk : List DState} :
    parseString { stream := 0 :: 0 :: X, stack := stk }
      = .ok ([], { stream := X, stack := stk }) := by
  show parseString { stream := beBytes 2 0 ++ ([] ++ X), stack := stk }
      = .ok ([], { stream := X, stack := stk })
  exact parseString_ok (by norm_num) rfl

set_option maxHeartbeats 1000000 in
/-- Decoding a root string below the i16 sign boundary: TypeID 8, the
discarded name, then the string payload. -/
theorem nbtFromBytes_vStr_ok {s : List Nat} (hlen : s.length ≤ 32767) :
    nbtFromBytes 2 (8 :: 0 :: 0 :: (beBytes 2 s.length ++ s)) = .ok (.vStr s, []) := by
  rw [nbtFromBytes]
  rw [deAny]
  simp only
  rw [parseTypeId_cons]
  simp only [bind, Except.bind]
  rw [parseString_empty]
  dsimp only
  rw [parseTagPayload.eq_def]
  simp only
  have hps : parseString { stream := beBytes 2 s.length ++ s, stack := ([] : List DState) }
      = .ok (s, { stream := [], stack := [] }) := by
    rw [show (beBytes 2 s.length ++ s) = beBytes 2 s.length ++ (s ++ []) by simp]
    exact parseString_ok hlen rfl
  rw [hps]
  rfl

set_option maxHeartbeats 1000000 in
/-- Decoding a root string whose byte length is 32768..65535: the length
prefix parses as a negative i16 and decode fails. -/
theorem nbtFromBytes_vStr_err {s : List Nat} (h1 : 32768 ≤ s.length)
    (h2 : s.length ≤ 65535) :
    nbtFromBytes 2 (8 :: 0 :: 0 :: (beBytes 2 s.length ++ s))
      = .error (.message "invalid size of a string") := by
  rw [nbtFromBytes]
  rw [deAny]
  simp only
  rw [parseTypeId_cons]
  simp only [bind, Except.bind]
  rw [parseString_empty]
  dsimp only
  rw [parseTagPayload.eq_def]
  simp only
  rw [parseString_err h1 h2]
  rfl

/-! ## Position byte-level serialization -/

theorem positionDeserialize_append {n : Nat} {extra : List Nat} (hn : n < 2 ^ 64) :
    positionDeserialize (beBytes 8 n ++ extra) = .ok (positionFromU64 n, extra) := by
  rw [positionDeserialize]
  rw [if_pos (by simp [length_beBytes])]
  rw [List.take_left' (length_beBytes 8 n), List.drop_left' (length_beBytes 8 n),
    beVal_beBytes_of_lt (by norm_num; omega)]

/-- The position decoder's field extraction in div/mod form. -/
theorem positionFromU64_eq (n : Nat) :
    positionFromU64 n = { x := uN_to_iN 26 (n / 2 ^ 38 % 2 ^ 26),
                          y := uN_to_iN 12 (n / 2 ^ 26 % 2 ^ 12),
                          z := uN_to_iN 26 (n % 2 ^ 26) } := by
  rw [positionFromU64]
  have hz : n &&& lsbMask 26 = n % 2 ^ 26 := by
    show n &&& (2 ^ 26 - 1) = n % 2 ^ 26
    rw [Nat.and_pow_two_sub_one_eq_mod]
  have hy : (n >>> 26) &&& lsbMask 12 = n / 2 ^ 26 % 2 ^ 12 := by
    show n >>> 26 &&& (2 ^ 12 - 1) = n / 2 ^ 26 % 2 ^ 12
    rw [Nat.and_pow_two_sub_one_eq_mod, Nat.shiftRight_eq_div_pow]
  have hx : (n >>> (26 + 12)) &&& lsbMask 26 = n / 2 ^ 38 % 2 ^ 26 := by
    show n >>> (26 + 12) &&& (2 ^ 26 - 1) = n / 2 ^ 38 % 2 ^ 26
    rw [Nat.and_pow_two_sub_one_eq_mod, Nat.shiftRight_eq_div_pow]
  rw [hx, hy, hz]

/-! ## Claims -/

/-- C1: for every i32 value, decoding the bytes produced by encoding the
VarInt yields the value again (likewise for every i64 and VarLong), and
encoding VarInt(0) produces exactly the single byte 0x00. -/
theorem claim_varint_roundtrip :
    (∀ (v : Int) (extra : List Nat), -2 ^ 31 ≤ v → v < 2 ^ 31 →
      varintDecode 32 (varintEncode 32 v ++ extra) = .ok (v, extra))
    ∧ (∀ (v : Int) (extra : List Nat), -2 ^ 63 ≤ v → v < 2 ^ 63 →
      varintDecode 64 (varintEncode 64 v ++ extra) = .ok (v, extra))
    ∧ varintEncode 32 0 = [0] := by
  refine ⟨?_, ?_, rfl⟩
  · intro v extra hl hr
    exact varint_roundtrip_general 32 (by norm_num) v (by omega) (by omega) extra
  · intro v extra hl hr
    exact varint_roundtrip_general 64 (by norm_num) v (by omega) (by omega) extra

/-- C1 witness: the round trips at VarInt(300) and VarLong(-5). -/
theorem claim_varint_roundtrip_witness :
    varintDecode 32 (varintEncode 32 300 ++ []) = .ok (300, [])
    ∧ varintDecode 64 (varintEncode 64 (-5) ++ []) = .ok (-5, []) :=
  ⟨claim_varint_roundtrip.1 300 [] (by norm_num) (by norm_num),
   claim_varint_roundtrip.2.1 (-5) [] (by norm_num) (by norm_num)⟩

/-- C2: the claim fails on the code. For every string whose CESU-8
encoding is 32768..65535 bytes long, NBT-serializing it as a root value
succeeds — the payload is the u16 big-endian byte length then the CESU-8
bytes — but deserializing the resulting bytes fails, because parse_string
reads the length back with parse_i16 (signed) and rejects the negative
value; the claim says every string up to 65535 bytes round-trips. -/
theorem claim_nbt_string_roundtrip (s : List Nat)
    (h1 : 32768 ≤ s.length) (h2 : s.length ≤ 65535) :
    nbtToBytes (.vStr s) = .ok (8 :: 0 :: 0 :: (beBytes 2 s.length ++ s))
    ∧ nbtFromBytes 2 (8 :: 0 :: 0 :: (beBytes 2 s.length ++ s))
      = .error (.message "invalid size of a string") :=
  ⟨nbtToBytes_vStr (by omega), nbtFromBytes_vStr_err h1 h2⟩

/-- C2 witness: a 32768-byte string encodes but fails to decode. -/
theorem claim_nbt_string_roundtrip_witness :
    nbtToBytes (.vStr (List.replicate 32768 97))
      = .ok (8 :: 0 :: 0 :: (beBytes 2 32768 ++ List.replicate 32768 97))
    ∧ nbtFromBytes 2 (8 :: 0 :: 0 :: (beBytes 2 32768 ++ List.replicate 32768 97))
      = .error (.message "invalid size of a string") := by
  have hlen : (List.replicate 32768 97).length = 32768 := List.length_replicate _ _
  have h := claim_nbt_string_roundtrip (List.replicate 32768 97)
    (by rw [hlen]) (by rw [hlen]; norm_num)
  rw [hlen] at h
  exact h

/-- C3: decoding a VarInt from a stream whose first six bytes all have the
continuation bit 0x80 set fails, with the HumongousVarInt error kind. -/
theorem claim_varint_humongous (b0 b1 b2 b3 b4 b5 : Nat) (rest : List Nat)
    (h0 : b0 &&& 128 ≠ 0) (h1 : b1 &&& 128 ≠ 0) (h2 : b2 &&& 128 ≠ 0)
    (h3 : b3 &&& 128 ≠ 0) (h4 : b4 &&& 128 ≠ 0) (_h5 : b5 &&& 128 ≠ 0) :
    varintDecode 32 (b0 :: b1 :: b2 :: b3 :: b4 :: b5 :: rest)
      = .error .humongousVarInt := by
  rw [varintDecode]
  rw [varintDecodeAux, if_neg (by norm_num), if_neg h0]
  rw [varintDecodeAux, if_neg (by norm_num), if_neg h1]
  rw [varintDecodeAux, if_neg (by norm_num), if_neg h2]
  rw [varintDecodeAux, if_neg (by norm_num), if_neg h3]
  rw [varintDecodeAux, if_neg (by norm_num), if_neg h4]
  rw [varintDecodeAux, if_pos (by norm_num)]
  rfl

/-- C3 witness: six 0xFF bytes fail with HumongousVarInt. -/
theorem claim_varint_humongous_witness :
    varintDecode 32 [255, 255, 255, 255, 255, 255] = .error .humongousVarInt :=
  claim_varint_humongous 255 255 255 255 255 255 [] (by decide) (by decide)
    (by decide) (by decide) (by decide) (by decide)

/-- C4: the claim fails on the code. The encoder computes each 7-bit group
from the arithmetically shifted signed value (`self.0 >> (7 * i)`), not
from the unsigned bit pattern, so encoding VarInt(-1) produces
[0xFF, 0xFF, 0xFF, 0xFF, 0x7F] — the fifth byte is 0x7F, not the 0x0F the
claim (and the Minecraft wire format) requires. Decoding the claim's five
bytes does yield -1, as the claim says. -/
theorem claim_varint_neg_one :
    varintEncode 32 (-1) = [0xFF, 0xFF, 0xFF, 0xFF, 0x7F]
    ∧ varintEncode 32 (-1) ≠ [0xFF, 0xFF, 0xFF, 0xFF, 0x0F]
    ∧ varintDecode 32 [0xFF, 0xFF, 0xFF, 0xFF, 0x0F] = .ok (-1, []) :=
  ⟨rfl, by decide, rfl⟩

/-- C5: decoding the 8-byte encoding of a Position yields each field
reduced modulo its width (2^26 for x and z, 2^12 for y) and sign-extended;
when every field is in its two's-complement range, the original Position
comes back exactly. -/
theorem claim_position_roundtrip (x y z : Int) (extra : List Nat)
    (hx1 : -2 ^ 31 ≤ x) (hx2 : x < 2 ^ 31) (hy1 : -2 ^ 15 ≤ y) (hy2 : y < 2 ^ 15)
    (hz1 : -2 ^ 31 ≤ z) (hz2 : z < 2 ^ 31) :
    positionDeserialize (positionSerialize ⟨x, y, z⟩ ++ extra)
      = .ok (⟨uN_to_iN 26 (x % 2 ^ 26).toNat, uN_to_iN 12 (y % 2 ^ 12).toNat,
          uN_to_iN 26 (z % 2 ^ 26).toNat⟩, extra)
    ∧ (-2 ^ 25 ≤ x → x < 2 ^ 25 → -2 ^ 11 ≤ y → y < 2 ^ 11 →
        -2 ^ 25 ≤ z → z < 2 ^ 25 →
        positionDeserialize (positionSerialize ⟨x, y, z⟩ ++ extra)
          = .ok (⟨x, y, z⟩, extra)) := by
  have hmain : positionDeserialize (positionSerialize ⟨x, y, z⟩ ++ extra)
      = .ok (⟨uN_to_iN 26 (x % 2 ^ 26).toNat, uN_to_iN 12 (y % 2 ^ 12).toNat,
          uN_to_iN 26 (z % 2 ^ 26).toNat⟩, extra) := by
    rw [positionSerialize, positionDeserialize_append (positionIntoU64_lt _),
      positionIntoU64_eq]
    simp only
    rw [positionFromU64_fields (toNat_emod_lt x 26) (toNat_emod_lt y 12)
      (toNat_emod_lt z 26)]
  refine ⟨hmain, fun ha hb hc hd he hf => ?_⟩
  rw [hmain, uN_to_iN_emod 26 (by norm_num) x (by omega) (by omega),
    uN_to_iN_emod 12 (by norm_num) y (by omega) (by omega),
    uN_to_iN_emod 26 (by norm_num) z (by omega) (by omega)]

/-- C5 witness: the position (2^25, 2, 3) has x one past the 26-bit range;
it decodes to x = -2^25, and an in-range position round-trips. -/
theorem claim_position_roundtrip_witness :
    (positionDeserialize (positionSerialize ⟨2 ^ 25, 2, 3⟩ ++ [])
      = .ok (⟨uN_to_iN 26 ((2 ^ 25 : Int) % 2 ^ 26).toNat,
          uN_to_iN 12 ((2 : Int) % 2 ^ 12).toNat,
          uN_to_iN 26 ((3 : Int) % 2 ^ 26).toNat⟩, []))
    ∧ positionDeserialize (positionSerialize ⟨-7, -2, 5⟩ ++ [])
      = .ok (⟨-7, -2, 5⟩, []) :=
  ⟨(claim_position_roundtrip (2 ^ 25) 2 3 [] (by norm_num) (by norm_num)
      (by norm_num) (by norm_num) (by norm_num) (by norm_num)).1,
   (claim_position_roundtrip (-7) (-2) 5 [] (by norm_num) (by norm_num)
      (by norm_num) (by norm_num) (by norm_num) (by norm_num)).2
      (by norm_num) (by norm_num) (by norm_num) (by norm_num)
      (by norm_num) (by norm_num)⟩

/-- C6 counterexample: the claim's concrete byte dump is wrong about the
code. Encoding Position(1, 2, 3) gives byte 0x08 at index 4 (y = 2
shifted to bit 27 lands in the fifth byte as 0x08), not 0x80 as claimed;
the claim's own packing formula agrees with the code, contradicting its
hex dump. -/
theorem claim_position_scenario_bytes :
    positionSerialize ⟨1, 2, 3⟩ = [0x00, 0x00, 0x00, 0x40, 0x08, 0x00, 0x00, 0x03]
    ∧ positionSerialize ⟨1, 2, 3⟩ ≠ [0x00, 0x00, 0x00, 0x40, 0x80, 0x00, 0x00, 0x03] :=
  ⟨rfl, by decide⟩

/-- C6 amended: encoding Position(1, 2, 3) produces exactly the big-endian
bytes of the u64 (x & 0x3FFFFFF) << 38 | (y & 0xFFF) << 26 |
(z & 0x3FFFFFF), namely [00, 00, 00, 40, 08, 00, 00, 03], and decoding
those bytes yields Position(1, 2, 3) again. -/
theorem claim_position_scenario :
    positionSerialize ⟨1, 2, 3⟩ = beBytes 8 ((1 <<< 38) ||| (2 <<< 26) ||| 3)
    ∧ positionSerialize ⟨1, 2, 3⟩ = [0x00, 0x00, 0x00, 0x40, 0x08, 0x00, 0x00, 0x03]
    ∧ positionDeserialize [0x00, 0x00, 0x00, 0x40, 0x08, 0x00, 0x00, 0x03]
      = .ok (⟨1, 2, 3⟩, []) :=
  ⟨rfl, rfl, rfl⟩

/-- C7: serializing an empty sequence as an NBT root emits the list TypeID
byte 0x09, the (empty root) name, the element-TypeID byte 0x00 and the
four-byte i32 size 0; deserializing that encoding yields the empty
sequence, the first element request returning end-of-sequence. -/
theorem claim_nbt_empty_list :
    nbtToBytes (.vSeq []) = .ok [9, 0, 0, 0, 0, 0, 0, 0]
    ∧ nbtFromBytes 4 [9, 0, 0, 0, 0, 0, 0, 0] = .ok (.vSeq [], [])
    ∧ seqLoop 1 { stream := [], stack := [.listBeforeItem 0 0] } []
      = .ok ([], { stream := [], stack := [] }) :=
  ⟨rfl, rfl, rfl⟩

/-- C8: with a list's TypeID already fixed, serializing an element of a
different TypeID fails with the heterogeneity error (the serializer aborts
before writing anything for that element, and a matching element writes no
TypeID byte at all); consequently all elements of a successfully
serialized list share one TypeID. -/
theorem claim_nbt_list_homogeneous :
    (∀ (v : NValue) (s : SerSt) (lt : Nat) (sz : Int) (rest : List SState),
      s.stack = .inList lt sz :: rest → typeIdOf v ≠ lt →
      serializeValue v s
        = .error (.message "Heterogenuous sequence not allowed in NBT format"))
    ∧ (∀ (t lt : Nat) (sz : Int) (rest : List SState) (s s' : SerSt),
      s.stack = .inList lt sz :: rest → serTypeId t s = .ok s' → s'.out = s.out)
    ∧ (∀ (elems : List NValue) (s s' : SerSt),
      serializeValue (.vSeq elems) s = .ok s' →
      ∀ x ∈ elems, ∀ y ∈ elems, typeIdOf x = typeIdOf y) := by
  refine ⟨sv_heterog, ?_, fun elems s s' h => vSeq_homog h⟩
  intro t lt sz rest s s' hst h
  obtain ⟨stk, out⟩ := s
  simp only at hst
  subst hst
  simp only [serTypeId] at h
  split_ifs at h
  cases h
  rfl

/-- C8 witness: an i16 element after an i8 first element fails with the
heterogeneity error; a matching serialize_type_id writes no byte. -/
theorem claim_nbt_list_homogeneous_witness :
    serializeValue (.vI16 2) { stack := [.inList 1 1], out := [] }
      = .error (.message "Heterogenuous sequence not allowed in NBT format")
    ∧ (serTypeId 1 { stack := [.inList 1 1], out := [] }).map SerSt.out = .ok [] := by
  refine ⟨claim_nbt_list_homogeneous.1 (.vI16 2) _ 1 1 [] rfl (by decide), ?_⟩
  have h : serTypeId 1 { stack := [.inList 1 1], out := [] }
      = .ok { stack := [.inList 1 0], out := [] } := rfl
  have := claim_nbt_list_homogeneous.2.1 1 1 1 [] { stack := [.inList 1 1], out := [] }
    { stack := [.inList 1 0], out := [] } rfl h
  rw [h]
  rfl

/-- C9: the claim fails on the code. Serializing a map with an integer key
does not return an error value: serialize_i32 emits the TypeID byte (the
stack is CompoundBeforeEntry, so the byte is written) and then
serialize_name pops CompoundBeforeEntry and hits unreachable!() — a
panic, i.e. a control-flow exit, contradicting both "non-string keys fail
[as error values]" and "errors are values, not control-flow exits". -/
theorem claim_nbt_int_key_panics :
    nbtToBytes (.vMap [(.vI32 3, .vI8 5)]) = .error .panicked := rfl

/-- C10: for every 64-bit word, encoding the Position obtained by decoding
it yields the word again: the 26+12+26 field widths partition all 64
bits. -/
theorem claim_position_unpack_pack (n : Nat) (h : n < 2 ^ 64) :
    positionIntoU64 (positionFromU64 n) = n := by
  rw [positionFromU64_eq, positionIntoU64_eq]
  simp only
  have h1 : n / 2 ^ 38 % 2 ^ 26 < 2 ^ 26 := Nat.mod_lt _ (by norm_num)
  have h2 : n / 2 ^ 26 % 2 ^ 12 < 2 ^ 12 := Nat.mod_lt _ (by norm_num)
  have h3 : n % 2 ^ 26 < 2 ^ 26 := Nat.mod_lt _ (by norm_num)
  rw [emod_uN_to_iN h1, emod_uN_to_iN h2, emod_uN_to_iN h3]
  simp only [Int.toNat_natCast]
  omega

/-- C10 witness: the identity at a concrete 64-bit word. -/
theorem claim_position_unpack_pack_witness :
    positionIntoU64 (positionFromU64 81985529216486895) = 81985529216486895 :=
  claim_position_unpack_pack 81985529216486895 (by norm_num)

end LazyMiner
